import Mathlib

/-!
Verification development for the Fly-in drone-routing repository.

The definitions below are a shallow embedding of the Python sources:
`srcs/solver/graph_solver.py` (class `Solver`), `srcs/managing/manager.py`
(`Manager.classic_render`), `src/parser.py` (`Parser.scan_file_format`) and
`src/models.py` (the pydantic models and their validators).

Python dicts are modelled as insertion-ordered association lists (`dget?` /
`dset`), Python lists as Lean lists, machine integers as `Nat`/`Int`, and the
unbounded `while heap:` loop of `Solver._find_path` as a fuel-indexed loop
whose `fuelOut` result means "the Python loop is still running after that many
iterations".
-/

namespace FlyIn

/-- Python dict lookup (`d[k]` / `k in d`) on an insertion-ordered
association list: returns the value of the first (and, for lists built only
with `dset`, the only) entry whose key equals `k`. -/
def dget? {α β : Type} [DecidableEq α] : List (α × β) → α → Option β
  | [], _ => none
  | (k0, v0) :: rest, k => if k0 = k then some v0 else dget? rest k

/-- Python dict assignment (`d[k] = v`): overwrites the existing entry in
place (keeping its position, as CPython dicts do) or appends a new entry at
the end. -/
def dset {α β : Type} [DecidableEq α] : List (α × β) → α → β → List (α × β)
  | [], k, v => [(k, v)]
  | (k0, v0) :: rest, k, v =>
    if k0 = k then (k, v) :: rest else (k0, v0) :: dset rest k v

/-! ### Data model (src/models.py) -/

/-- Embedding of `HubModel` (pydantic). `max_drones` carries the `ge=0`
constraint as `Nat`; coordinates are `Int`. -/
structure HubModel where
  name : String
  x : Int
  y : Int
  zone : String
  color : Option String
  max_drones : Nat
deriving DecidableEq, Repr

/-- Embedding of `ConnectionModel`. `max_link_capacity` carries `ge=0`. -/
structure ConnectionModel where
  zone_1 : String
  zone_2 : String
  max_link_capacity : Nat
deriving DecidableEq, Repr

/-- Embedding of `MapModel`. -/
structure MapModel where
  nb_drones : Nat
  start_hub : HubModel
  end_hub : HubModel
  hubs : List HubModel
  connections : List ConnectionModel
deriving DecidableEq, Repr

/-- Reservation table: `Dict[Tuple, List[str]]` keyed by `(location, turn)`
where `location` is a hub name or a canonical edge label. -/
abbrev Reservation := List ((String × Nat) × List String)

/-- Drone path: a list of `(hub, turn)` stamps. -/
abbrev Path := List (String × Nat)

/-! ### Solver embedding (srcs/solver/graph_solver.py) -/

/-- Embedding of `Solver._is_available`. -/
def isAvailable (res : Reservation) (location : String) (turn : Nat)
    (capacity : Nat) (is_endpoint : Bool) : Bool :=
  if is_endpoint then true
  else
    match dget? res (location, turn) with
    | none => true
    | some l => decide (l.length < capacity)

/-- Embedding of `Solver._book_reservation`: append the id to the list at
`(location, turn)`, creating the entry if absent. -/
def bookReservation (res : Reservation) (id location : String) (turn : Nat) : Reservation :=
  match dget? res (location, turn) with
  | some l => dset res (location, turn) (l ++ [id])
  | none => dset res (location, turn) [id]

/-- Python string comparison `a < b`: lexicographic by code points. -/
def charListLtb : List Char → List Char → Bool
  | [], [] => false
  | [], _ :: _ => true
  | _ :: _, [] => false
  | a :: as, b :: bs => decide (a < b) || (a == b && charListLtb as bs)

/-- Python `a < b` on strings. -/
def strLtb (a b : String) : Bool := charListLtb a.data b.data

/-- Python `a <= b` on strings. -/
def strLeb (a b : String) : Bool := strLtb a b || a == b

/-- Embedding of the canonical edge label
`link = sorted([a, b]); link[0] + "-" + link[1]`. -/
def linkStr (a b : String) : String :=
  if strLeb a b then a ++ "-" ++ b else b ++ "-" ++ a

/-- Entry of `Solver.records[hub]`: the `package` dictionaries built by
`init_registry`. -/
structure Package where
  zone : String
  type : String
  cost : Nat
  capacity : Nat
  link_capacity : Nat
deriving DecidableEq, Repr

/-- Embedding of the local `cost` dict of `init_registry`. A zone outside
the dict raises `KeyError` in Python; `init_registry` only looks up zones of
validator-accepted hubs that are not `"blocked"`, so the fallback value 0 is
unreachable on the inputs our theorems quantify over. -/
def costOf (z : String) : Nat :=
  if z = "normal" then 1 else if z = "restricted" then 2
  else if z = "priority" then 1 else 0

/-- State set up by `Solver.init_registry`: the adjacency registry
`self.records` and the hub index `self.index_hubs`. -/
structure Registry where
  records : List (String × List Package)
  index_hubs : List (String × HubModel)
deriving DecidableEq, Repr

/-- Hubs in registry insertion order:
`[self.map.start_hub, self.map.end_hub] + self.map.hubs`. -/
def allHubs (m : MapModel) : List HubModel :=
  [m.start_hub, m.end_hub] ++ m.hubs

/-- Loop `for hub in hubs: self.index_hubs[hub.name] = hub`. -/
def indexHubs (m : MapModel) : List (String × HubModel) :=
  (allHubs m).foldl (fun d h => dset d h.name h) []

/-- Loop `for hub in hubs: self.records[hub.name] = []`. -/
def baseRecords (m : MapModel) : List (String × List Package) :=
  (allHubs m).foldl (fun d h => dset d h.name []) []

/-- Body of the `for connection in self.map.connections` loop of
`init_registry`. An endpoint name absent from `index_hubs` raises `KeyError`
in Python; the validator guarantees both endpoints resolve, so the
fall-through branch is unreachable on validator-accepted maps. -/
def addConn (index : List (String × HubModel)) (recs : List (String × List Package))
    (c : ConnectionModel) : List (String × List Package) :=
  match dget? index c.zone_1, dget? index c.zone_2 with
  | some h1, some h2 =>
    if h1.zone = "blocked" ∨ h2.zone = "blocked" then recs
    else
      let p1 : Package := ⟨c.zone_2, h2.zone, costOf h2.zone, h2.max_drones, c.max_link_capacity⟩
      let p2 : Package := ⟨c.zone_1, h1.zone, costOf h1.zone, h1.max_drones, c.max_link_capacity⟩
      let recs1 := dset recs c.zone_1 ((dget? recs c.zone_1).getD [] ++ [p1])
      dset recs1 c.zone_2 ((dget? recs1 c.zone_2).getD [] ++ [p2])
  | _, _ => recs

/-- Embedding of `Solver.init_registry`. -/
def initRegistry (m : MapModel) : Registry :=
  ⟨m.connections.foldl (addConn (indexHubs m)) (baseRecords m), indexHubs m⟩

/-- Lookup `self.records[h]`. A missing key raises `KeyError` in Python;
the search only looks up hubs that are keys of `records`, so the `[]`
default is unreachable there. -/
def recordsAt (reg : Registry) (h : String) : List Package :=
  (dget? reg.records h).getD []

/-- Lookup `self.index_hubs[h].max_drones` (same `KeyError` remark). -/
def idxCap (reg : Registry) (h : String) : Nat :=
  ((dget? reg.index_hubs h).map HubModel.max_drones).getD 0

/-- Zone of the hub registered under name `h`, if any. -/
def zoneAt (reg : Registry) (h : String) : Option String :=
  (dget? reg.index_hubs h).map HubModel.zone

/-! ### Search states and the frontier

Python pushes 4-tuples `(turn, priority, hub, path)` onto a `heapq` heap and
compares them with the standard lexicographic tuple order: `Nat`, then `Int`,
then string order, then lexicographic list-of-pairs order. -/

/-- Search state `(t, p, hub, path)`. -/
structure SState where
  turn : Nat
  prio : Int
  hub : String
  path : Path
deriving DecidableEq, Repr

/-- Python comparison of two `(hub, turn)` tuples. -/
def stampLtb (a b : String × Nat) : Bool :=
  strLtb a.1 b.1 || (a.1 == b.1 && decide (a.2 < b.2))

/-- Python lexicographic comparison of two stamp lists. -/
def pathLtb : Path → Path → Bool
  | [], [] => false
  | [], _ :: _ => true
  | _ :: _, [] => false
  | a :: as, b :: bs => stampLtb a b || (a == b && pathLtb as bs)

/-- Python comparison of two heap tuples `(t, p, hub, path)`. -/
def stateLtb (a b : SState) : Bool :=
  decide (a.turn < b.turn) ||
    (a.turn == b.turn && (decide (a.prio < b.prio) ||
      (a.prio == b.prio && (strLtb a.hub b.hub ||
        (a.hub == b.hub && pathLtb a.path b.path)))))

/-- Model of `heapq.heappush` followed by later `heappop`s: the heap is kept
as a list sorted ascending by the tuple order, with insertion after equal
elements, and `heappop` takes the head. `heapq.heappop` always returns a
minimal element of the heap, so this model agrees with `heapq` whenever the
heap contents are pairwise distinct — which holds in every `_find_path` run
on a validator-accepted map, because a pushed state's `path` component
records its whole history and therefore determines the state. -/
def heapPush (heap : List SState) (s : SState) : List SState :=
  match heap with
  | [] => [s]
  | x :: xs => if stateLtb s x then s :: x :: xs else x :: heapPush xs s

/-- Result of `_find_path`, with fuel accounting: `found p` models
`return move[3]`, `exhausted` models falling out of `while heap:` (after
which Python returns `None`), and `fuelOut` means the Python loop has not
finished within the given number of iterations. -/
inductive SearchResult where
  | found (p : Path)
  | exhausted
  | fuelOut
deriving DecidableEq, Repr

/-- State pushed when taking the move `d` from the popped state `move`:
tuple `(move[0] + turn_to_go, priority, d["zone"], move[3] + [...])` with the
priority score decremented exactly when the target zone is `"priority"`. -/
def movedState (move : SState) (d : Package) : SState :=
  ⟨move.turn + d.cost,
   if d.type == "priority" then move.prio - 1 else move.prio,
   d.zone,
   move.path ++ [(d.zone, move.turn + d.cost)]⟩

/-- State pushed by the wait-in-place move:
`(move[0] + 1, move[1], move[2], move[3] + [(move[2], move[0] + 1)])`. -/
def waitState (move : SState) : SState :=
  ⟨move.turn + 1, move.prio, move.hub, move.path ++ [(move.hub, move.turn + 1)]⟩

/-- Neighbour expansion of one popped state: the body of
`for d in self.records[move[2]]`, pushing the move when both the node and
the edge availability checks pass. The node check treats the target as an
endpoint iff its name equals the start or end hub argument. -/
def pushMove (sh eh : String) (res : Reservation) (move : SState)
    (heap : List SState) (d : Package) : List SState :=
  if isAvailable res d.zone (move.turn + d.cost) d.capacity (d.zone == sh || d.zone == eh) then
    if isAvailable res (linkStr move.hub d.zone) move.turn d.link_capacity false then
      heapPush heap (movedState move d)
    else heap
  else heap

/-- Fold of `pushMove` over the adjacency list of the popped hub. -/
def expandMoves (sh eh : String) (res : Reservation) (move : SState)
    (heap : List SState) (pkgs : List Package) : List SState :=
  pkgs.foldl (pushMove sh eh res move) heap

/-- Wait-in-place push at the end of the loop body of `_find_path`. -/
def waitPush (reg : Registry) (sh eh : String) (res : Reservation) (move : SState)
    (heap : List SState) : List SState :=
  if isAvailable res move.hub (move.turn + 1) (idxCap reg move.hub)
      (move.hub == sh || move.hub == eh) then
    heapPush heap (waitState move)
  else heap

/-- Embedding of the `while heap:` loop of `Solver._find_path`. The
reservation table is threaded through and returned so that theorems can
state what the search does to it. Python adds `(hub, turn)` to `visited`
just before the end-hub test; since a hit on the end hub returns
immediately, recording the pair only on the non-returning branch is
observationally identical. -/
def findPathLoop (reg : Registry) (sh eh : String) (res : Reservation) :
    Nat → List SState → List (String × Nat) → SearchResult × Reservation
  | 0, _, _ => (.fuelOut, res)
  | _ + 1, [], _ => (.exhausted, res)
  | fuel + 1, move :: rest, visited =>
    if (move.hub, move.turn) ∈ visited then
      findPathLoop reg sh eh res fuel rest visited
    else if move.hub = eh then (.found move.path, res)
    else
      findPathLoop reg sh eh res fuel
        (waitPush reg sh eh res move (expandMoves sh eh res move rest (recordsAt reg move.hub)))
        ((move.hub, move.turn) :: visited)

/-- Embedding of `Solver._find_path(start_hub, end_hub)`: the loop started
from the single state `(0, 0, start_hub, [])` with empty `visited`. -/
def findPath (reg : Registry) (sh eh : String) (res : Reservation) (fuel : Nat) :
    SearchResult × Reservation :=
  findPathLoop reg sh eh res fuel [⟨0, 0, sh, []⟩] []

/-- Commit loop of `generate_solution`: for each index `j`, book the edge to
the next stamp first (when the hubs differ, at the entry turn), then the
node at stamp `j`. -/
def commitPath (res : Reservation) (id : String) : Path → Reservation
  | [] => res
  | [x] => bookReservation res id x.1 x.2
  | x1 :: x2 :: rest =>
    let res1 := if x1.1 ≠ x2.1 then bookReservation res id (linkStr x1.1 x2.1) x1.2 else res
    commitPath (bookReservation res1 id x1.1 x1.2) id (x2 :: rest)

/-- Drone identifiers `"D1" … "Dn"` in solving order. -/
def droneIds (n : Nat) : List String :=
  (List.range n).map (fun i => "D" ++ toString (i + 1))

/-- Per-drone loop of `generate_solution`. A `falsy` search result (`None`
from an exhausted heap, or an empty path) skips the drone (`continue`), so
its entry is omitted; otherwise the path is stored and committed. `none`
means some drone's search was still running when the fuel ran out, i.e. the
Python call has not returned. -/
def solveDrones (reg : Registry) (sh eh : String) (fuel : Nat) :
    List String → Reservation → List (String × Path) →
    Option (List (String × Path) × Reservation)
  | [], res, sol => some (sol, res)
  | id :: ids, res, sol =>
    match (findPath reg sh eh res fuel).1 with
    | .fuelOut => none
    | .exhausted => solveDrones reg sh eh fuel ids res sol
    | .found p =>
      if p.isEmpty then solveDrones reg sh eh fuel ids res sol
      else solveDrones reg sh eh fuel ids (commitPath res id p) (dset sol id p)

/-- Embedding of `Solver.generate_solution`. -/
def generateSolution (m : MapModel) (fuel : Nat) :
    Option (List (String × Path) × Reservation) :=
  solveDrones (initRegistry m) m.start_hub.name m.end_hub.name fuel
    (droneIds m.nb_drones) [] []

/-- Length of the reservation list stored at key `k` (0 when absent). -/
def entryLen (res : Reservation) (k : String × Nat) : Nat :=
  ((dget? res k).getD []).length

/-! ### Claim C2: behaviour when no feasible path exists

The map below is validator-accepted (two hubs, no connections), and the end
hub is unreachable from the start hub. The spec says the search heap then
empties and the drone is omitted; in the code, waiting at the start hub is
always available (the start hub is endpoint-exempt), so every iteration
re-pushes a wait state and the heap never empties: `_find_path` loops
forever and its `return None` line is dead code. -/

/-- Start hub of the C2 failing input. -/
def hubSC2 : HubModel := ⟨"S", 0, 0, "normal", none, 1⟩

/-- End hub of the C2 failing input. -/
def hubEC2 : HubModel := ⟨"E", 1, 1, "normal", none, 1⟩

/-- Failing input for C2: one drone, no connections, end hub unreachable. -/
def mC2 : MapModel := ⟨1, hubSC2, hubEC2, [], []⟩

/-- Path accumulated after `k` wait iterations at the start hub. -/
def waitChainPath (k : Nat) : Path :=
  (List.range k).map (fun j => ("S", j + 1))

/-- Visited set after `k` wait iterations at the start hub. -/
def waitChainVisited : Nat → List (String × Nat)
  | 0 => []
  | k + 1 => ("S", k) :: waitChainVisited k

/-- Search state at the start hub after `k` wait iterations. -/
def waitChainState (k : Nat) : SState :=
  ⟨k, 0, "S", waitChainPath k⟩

/-! ### Validity of a network

The predicates below mirror the acceptance conditions of the pydantic models
in `src/models.py`: a map object exists iff every per-hub validator and the
map-level validator raised no error. Only emptiness of the accumulated error
list matters for acceptance, so each check is modelled as the corresponding
"no error of this kind" condition. -/

/-- Zone values accepted by `HubModel.validate_hub_model`. -/
def validZones : List String := ["normal", "blocked", "restricted", "priority"]

/-- Names of all hubs, in registry order. -/
def hubNames (m : MapModel) : List String := (allHubs m).map HubModel.name

/-- Canonical form `tuple(sorted([zone_1, zone_2]))` of a connection. -/
def canonPair (c : ConnectionModel) : String × String :=
  if strLeb c.zone_1 c.zone_2 then (c.zone_1, c.zone_2) else (c.zone_2, c.zone_1)

/-- Connection loop of `validate_map_model` (`seen_connections`): `false`
iff some connection is a self-loop or repeats an earlier canonical pair. -/
def connsOk : List ConnectionModel → List (String × String) → Bool
  | [], _ => true
  | c :: rest, seen =>
    if c.zone_1 = c.zone_2 then false
    else if canonPair c ∈ seen then false
    else connsOk rest (canonPair c :: seen)

/-- Acceptance conditions of `MapModel` (field constraints, the per-hub
validators, and `validate_map_model`): drone count at least 1, non-empty hub
names and valid zones, unique hub names, unique interior coordinates not
colliding with the endpoints, distinct endpoint coordinates, resolvable
connection endpoints, and no self-loop or duplicate connection. -/
def validMapModel (m : MapModel) : Prop :=
  1 ≤ m.nb_drones ∧
  (∀ h ∈ allHubs m, h.name ≠ "" ∧ h.zone ∈ validZones) ∧
  (hubNames m).Nodup ∧
  (m.hubs.map (fun h => (h.x, h.y))).Nodup ∧
  (m.start_hub.x, m.start_hub.y) ∉ m.hubs.map (fun h => (h.x, h.y)) ∧
  (m.end_hub.x, m.end_hub.y) ∉ m.hubs.map (fun h => (h.x, h.y)) ∧
  (m.start_hub.x, m.start_hub.y) ≠ (m.end_hub.x, m.end_hub.y) ∧
  (∀ c ∈ m.connections, c.zone_1 ∈ hubNames m ∧ c.zone_2 ∈ hubNames m) ∧
  connsOk m.connections [] = true

/-- Valid network: accepted by the model validators, with hub names free of
`'-'`. Every map that reaches the solver was built by `Parser`, whose hub
name pattern `[^\s-]+` admits no hyphen, so hub-name keys and canonical edge
labels of the reservation table never collide. -/
def validNetwork (m : MapModel) : Prop :=
  validMapModel m ∧ ∀ h ∈ allHubs m, ('-' : Char) ∉ h.name.data

instance (m : MapModel) : Decidable (validMapModel m) := by
  unfold validMapModel; infer_instance

instance (m : MapModel) : Decidable (validNetwork m) := by
  unfold validNetwork; infer_instance

/-! ### Concrete networks used as claim inputs -/

/-- Network for C7: hub `A` is declared after hub `B`, and the connection
`S-B` before `S-A`, so the first expansion of the search pushes the move to
`B` before the move to `A`. -/
def mC7 : MapModel :=
  ⟨1, ⟨"S", 0, 0, "normal", none, 1⟩, ⟨"E", 3, 0, "normal", none, 1⟩,
   [⟨"A", 1, 0, "normal", none, 1⟩, ⟨"B", 2, 0, "normal", none, 1⟩],
   [⟨"S", "B", 1⟩, ⟨"S", "A", 1⟩, ⟨"A", "E", 1⟩, ⟨"B", "E", 1⟩]⟩

/-- Sortedness invariant of the modelled frontier: each element compares
not-greater than every later one under the Python tuple order. -/
abbrev HSorted (heap : List SState) : Prop :=
  List.Pairwise (fun a b => stateLtb b a = false) heap

/-! ### Search invariants

The propositions below record, for every state that can sit in the frontier,
exactly the facts established by the code when the state was pushed: its
path extends the implicit start position `(start_hub, 0)` by waits and
registry moves, each guarded by the availability checks of `_find_path`
against the (per-drone constant) reservation table. -/

/-- One step of a search path from position `prev` to stamp `next`: either
the wait-in-place push, or a registry move, each with the exact availability
checks performed by `_find_path` before pushing. -/
def stepOk (reg : Registry) (sh eh : String) (res : Reservation)
    (prev next : String × Nat) : Prop :=
  (next.1 = prev.1 ∧ next.2 = prev.2 + 1 ∧
    isAvailable res prev.1 (prev.2 + 1) (idxCap reg prev.1)
      (prev.1 == sh || prev.1 == eh) = true) ∨
  (∃ d ∈ recordsAt reg prev.1, next.1 = d.zone ∧ next.2 = prev.2 + d.cost ∧
    isAvailable res d.zone (prev.2 + d.cost) d.capacity
      (d.zone == sh || d.zone == eh) = true ∧
    isAvailable res (linkStr prev.1 d.zone) prev.2 d.link_capacity false = true)

/-- Chain of `stepOk` steps along a path, starting at `prev`. -/
def chainOk (reg : Registry) (sh eh : String) (res : Reservation) :
    (String × Nat) → Path → Prop
  | _, [] => True
  | prev, x :: rest => stepOk reg sh eh res prev x ∧ chainOk reg sh eh res x rest

/-- Invariant of every state in the frontier of `_find_path`: its path is a
`stepOk`-chain from `(start_hub, 0)` ending at the state's own `(hub, turn)`
position, and the states it visits avoid `"blocked"` zones — except that
when the start hub itself is blocked the state may still sit at the start
hub (the initial state and its waits), having never moved. -/
def stateInv (reg : Registry) (sh eh : String) (res : Reservation) (s : SState) : Prop :=
  chainOk reg sh eh res (sh, 0) s.path ∧
  s.path.getLastD (sh, 0) = (s.hub, s.turn) ∧
  (((∀ x ∈ s.path, zoneAt reg x.1 ≠ some "blocked") ∧ zoneAt reg s.hub ≠ some "blocked") ∨
    (zoneAt reg sh = some "blocked" ∧ s.hub = sh ∧ ∀ x ∈ s.path, x.1 = sh))

/-- Registry property underlying blocked-hub exclusion: every adjacency
entry joins two hubs whose zones are not `"blocked"`. -/
def regNoBlocked (reg : Registry) : Prop :=
  ∀ (k : String) (d : Package), d ∈ recordsAt reg k →
    zoneAt reg k ≠ some "blocked" ∧ zoneAt reg d.zone ≠ some "blocked"

/-- Package produced by `addConn` at the `zone_1` endpoint of `c`. -/
def connPkg1 (h2 : HubModel) (c : ConnectionModel) : Package :=
  ⟨c.zone_2, h2.zone, costOf h2.zone, h2.max_drones, c.max_link_capacity⟩

/-- Package produced by `addConn` at the `zone_2` endpoint of `c`. -/
def connPkg2 (h1 : HubModel) (c : ConnectionModel) : Package :=
  ⟨c.zone_1, h1.zone, costOf h1.zone, h1.max_drones, c.max_link_capacity⟩

/-- Provenance of a registry entry: `d` is one of the two packages that
`addConn` appends for connection `c`, stored under key `k`. -/
def addedBy (index : List (String × HubModel)) (c : ConnectionModel)
    (k : String) (d : Package) : Prop :=
  ∃ h1 h2 : HubModel, dget? index c.zone_1 = some h1 ∧ dget? index c.zone_2 = some h2 ∧
    ¬ (h1.zone = "blocked" ∨ h2.zone = "blocked") ∧
    ((k = c.zone_1 ∧ d = connPkg1 h2 c) ∨ (k = c.zone_2 ∧ d = connPkg2 h1 c))

/-- Traversal cost by zone as the spec states it: 1 for `normal` and
`priority`, 2 for `restricted`. -/
def specZoneCost (z : String) : Nat := if z = "restricted" then 2 else 1

/-- One step of path continuity as claim C3 states it: a wait, or a move
along an undirected connection of the network whose duration is the
traversal cost of the target hub's zone. -/
def specStep (m : MapModel) (prev next : String × Nat) : Prop :=
  (next.1 = prev.1 ∧ next.2 = prev.2 + 1) ∨
  ((∃ c ∈ m.connections,
      (c.zone_1 = prev.1 ∧ c.zone_2 = next.1) ∨ (c.zone_2 = prev.1 ∧ c.zone_1 = next.1)) ∧
   ∃ hz : HubModel, dget? (indexHubs m) next.1 = some hz ∧ hz.zone ≠ "blocked" ∧
     next.2 = prev.2 + specZoneCost hz.zone)

/-- Path continuity along a whole path, from the implicit start position. -/
def specChain (m : MapModel) : (String × Nat) → Path → Prop
  | _, [] => True
  | prev, x :: rest => specStep m prev x ∧ specChain m x rest

/-- Network with a restricted hub on the only route: the first move costs
two turns, so the drone's first stamp is `("R", 2)`. -/
def mRestrict : MapModel :=
  ⟨1, ⟨"S", 0, 0, "normal", none, 1⟩, ⟨"E", 2, 0, "normal", none, 1⟩,
   [⟨"R", 1, 0, "restricted", none, 1⟩],
   [⟨"S", "R", 1⟩, ⟨"R", "E", 1⟩]⟩

/-- Network with a blocked hub `X` beside a direct free route. -/
def mBlocked : MapModel :=
  ⟨1, ⟨"S", 0, 0, "normal", none, 1⟩, ⟨"E", 3, 0, "normal", none, 1⟩,
   [⟨"X", 1, 0, "blocked", none, 1⟩],
   [⟨"S", "X", 1⟩, ⟨"X", "E", 1⟩, ⟨"S", "E", 1⟩]⟩

/-- Network whose only route passes an interior hub with `max_drones = 0`:
the zero-capacity hub still admits the first drone, because the availability
check accepts any slot with no reservation entry. -/
def mZeroCap : MapModel :=
  ⟨1, ⟨"S", 0, 0, "normal", none, 1⟩, ⟨"E", 2, 0, "normal", none, 1⟩,
   [⟨"H", 1, 0, "normal", none, 0⟩],
   [⟨"S", "H", 1⟩, ⟨"H", "E", 1⟩]⟩

/-- Number of bookings that the commit loop of `generate_solution` performs
at reservation key `K` while committing a path: one per stamp equal to `K`
plus one per traversed edge whose label and entry turn equal `K`. -/
def bookCount (K : String × Nat) : Path → Nat
  | [] => 0
  | [x] => if (x.1, x.2) = K then 1 else 0
  | x1 :: x2 :: rest =>
      ((if x1.1 ≠ x2.1 ∧ (linkStr x1.1 x2.1, x1.2) = K then 1 else 0) +
       (if (x1.1, x1.2) = K then 1 else 0)) + bookCount K (x2 :: rest)

/-- Capacity bound of the committed reservation table, in the amended form:
interior hubs are bounded by `max(max_drones, 1)` and edges by
`max(max_link_capacity, 1)` — an absent entry passes the availability check
regardless of capacity, so a zero-capacity resource admits one drone. -/
def tableBound (m : MapModel) (res : Reservation) : Prop :=
  (∀ h ∈ m.hubs, ∀ t : Nat, entryLen res (h.name, t) ≤ max h.max_drones 1) ∧
  (∀ c ∈ m.connections, ∀ t : Nat,
    entryLen res (linkStr c.zone_1 c.zone_2, t) ≤ max c.max_link_capacity 1)

/-! ### Timeline projector (Solver.generate_timeline) -/

/-- Timeline: `Dict[int, Dict[str, List[str]]]` mapping each turn to the
dict of locations (hub names or edge labels) occupied at that turn. -/
abbrev Timeline := List (Nat × List (String × List String))

/-- Largest turn appearing in any path of the solution map; `none` models
the `ValueError` that Python's `max` raises on an empty set (empty solution
map or all paths empty). -/
def maxTurnAll (solutions : List (String × Path)) : Option Nat :=
  match solutions.foldr (fun e acc => e.2.map Prod.snd ++ acc) [] with
  | [] => none
  | t :: ts => some (ts.foldl max t)

/-- Append `id` to `timeline[t][loc]`, creating the inner entry if needed.
Python raises `KeyError` when turn `t` has no timeline entry; every turn
written by `generate_timeline` lies in `0 … max_turn`, all pre-created, so
the `none` fall-through is unreachable there. -/
def tlAdd (tl : Timeline) (t : Nat) (loc id : String) : Timeline :=
  match dget? tl t with
  | some inner =>
    match dget? inner loc with
    | some l => dset tl t (dset inner loc (l ++ [id]))
    | none => dset tl t (dset inner loc [id])
  | none => tl

/-- Edge fill loop `for j in range(1, diff)`: the drone occupies the edge
label at every strictly intermediate turn of a multi-turn traversal. -/
def addFills (tl : Timeline) (id link : String) (t1 diff : Nat) : Timeline :=
  (List.range' 1 (diff - 1)).foldl (fun tl j => tlAdd tl (t1 + j) link id) tl

/-- Per-drone loop body of `generate_timeline`: place the drone at each
stamp; between consecutive stamps at different hubs more than one turn
apart, fill the edge label at the intermediate turns. -/
def addStamps (tl : Timeline) (id : String) : Path → Timeline
  | [] => tl
  | [x] => tlAdd tl x.2 x.1 id
  | x1 :: x2 :: rest =>
    addStamps
      (if x1.1 = x2.1 then tlAdd tl x1.2 x1.1 id
       else if x2.2 - x1.2 > 1 then
         addFills (tlAdd tl x1.2 x1.1 id) id (linkStr x1.1 x2.1) x1.2 (x2.2 - x1.2)
       else tlAdd tl x1.2 x1.1 id) id (x2 :: rest)

/-- Pre-created timeline skeleton: one empty dict per turn `0 … maxT`. -/
def tlInit (maxT : Nat) : Timeline :=
  (List.range (maxT + 1)).map (fun i => (i, []))

/-- Initial-condition override
`timeline[0][start] = [key for key in solutions.keys()]`. -/
def setStart (tl : Timeline) (start : String) (ids : List String) : Timeline :=
  match dget? tl 0 with
  | some inner => dset tl 0 (dset inner start ids)
  | none => tl

/-- Embedding of `Solver.generate_timeline`. -/
def generateTimeline (m : MapModel) (solutions : List (String × Path)) : Option Timeline :=
  match maxTurnAll solutions with
  | none => none
  | some maxT =>
    some (setStart
      (solutions.foldl (fun tl e => addStamps tl e.1 e.2) (tlInit maxT))
      m.start_hub.name (solutions.map Prod.fst))

/-- Occupant list stored under key `k` at turn `t` (empty when absent). -/
def entryList (tl : Timeline) (t : Nat) (k : String) : List String :=
  ((dget? tl t).bind (fun inner => dget? inner k)).getD []

/-- Drone `id` is listed under key `k` at turn `t` of the timeline. -/
def idAt (tl : Timeline) (t : Nat) (k id : String) : Prop :=
  id ∈ entryList tl t k

/-- Key under which a drone following path `p` should appear at turn `t`:
the stamp's hub at stamp turns, the canonical edge label strictly inside a
multi-turn move, nothing otherwise. -/
def coverAt : Path → Nat → Option String
  | [], _ => none
  | [x], t => if t = x.2 then some x.1 else none
  | x1 :: x2 :: rest, t =>
    if t = x1.2 then some x1.1
    else if x1.1 ≠ x2.1 ∧ x1.2 < t ∧ t < x2.2 then some (linkStr x1.1 x2.1)
    else coverAt (x2 :: rest) t

/-- Consecutive-stamp shape of a solver path: a wait advances the turn by
exactly one at the same hub; a move strictly increases the turn. -/
def stepsWF : Path → Prop
  | [] => True
  | [_] => True
  | x1 :: x2 :: rest =>
      ((x1.1 = x2.1 ∧ x2.2 = x1.2 + 1) ∨ (x1.1 ≠ x2.1 ∧ x1.2 < x2.2)) ∧ stepsWF (x2 :: rest)

/-- Well-formed drone path: non-empty, first stamp at turn ≥ 1 (the implicit
start position is `(start_hub, 0)`), and well-shaped steps. -/
def wfPath : Path → Prop
  | [] => False
  | x :: rest => 1 ≤ x.2 ∧ stepsWF (x :: rest)

def stepsWFDec : ∀ p : Path, Decidable (stepsWF p)
  | [] => isTrue trivial
  | [_] => isTrue trivial
  | _ :: x2 :: rest =>
    haveI := stepsWFDec (x2 :: rest)
    inferInstanceAs (Decidable (_ ∧ _))

instance (p : Path) : Decidable (stepsWF p) := stepsWFDec p

instance : ∀ p : Path, Decidable (wfPath p)
  | [] => isFalse (fun h => h)
  | _ :: _ => inferInstanceAs (Decidable (_ ∧ _))

/-- Turn of the first stamp. -/
def firstTurn : Path → Nat
  | [] => 0
  | x :: _ => x.2

/-- Turn of the last stamp of the path. -/
def lastTurn (p : Path) : Nat := (p.getLastD ("", 0)).2

/-! ### Text renderer (Manager.classic_render) -/

/-- Inner loop of `classic_render` over the ids listed at one timeline key:
`previous_loc = latest_loc[id][-1]`; emit `f"{id}-{key}"` unless it equals
the key. `none` models the `KeyError` on an id missing from `latest_loc`. -/
def renderIds (latest : List (String × List String)) (key : String) :
    List String → Option (List String)
  | [] => some []
  | id :: rest =>
    match dget? latest id with
    | none => none
    | some l =>
      match renderIds latest key rest with
      | none => none
      | some ts =>
        some ((if l.getLastD "" = key then [] else [id ++ "-" ++ key]) ++ ts)

/-- Middle loop of `classic_render` over every key of `timeline[i]` — hub
names and edge labels alike — in dict insertion order. -/
def renderInner (latest : List (String × List String)) :
    List (String × List String) → Option (List String)
  | [] => some []
  | (key, v) :: rest =>
    match renderIds latest key v with
    | none => none
    | some ts1 =>
      match renderInner latest rest with
      | none => none
      | some ts2 => some (ts1 ++ ts2)

/-- Python `" ".join`. -/
def joinSpace : List String → String
  | [] => ""
  | [s] => s
  | s :: rest => s ++ " " ++ joinSpace rest

/-- Outer loop of `classic_render` over the listed turns: `timeline[i]`
raises `KeyError` when a turn is missing (modelled as `none`). -/
def renderLoop (latest : List (String × List String)) (tl : Timeline) :
    List Nat → Option (List String)
  | [] => some []
  | i :: rest =>
    match dget? tl i with
    | none => none
    | some inner =>
      match renderInner latest inner with
      | none => none
      | some ts =>
        match renderLoop latest tl rest with
        | none => none
        | some lines => some (joinSpace ts :: lines)

/-- Embedding of `Manager.classic_render`, producing the printed lines
(turns `1 … nb_turn`; the Python code joins them with newlines). The
`latest_loc` dict maps every drone to the singleton `[start_hub.name]` and
is never appended to afterwards. -/
def classicRender (m : MapModel) (solutions : List (String × Path)) (tl : Timeline) :
    Option (List String) :=
  match maxTurnAll solutions with
  | none => none
  | some nbTurn =>
    renderLoop
      ((List.range m.nb_drones).map
        (fun i => ("D" ++ toString (i + 1), [m.start_hub.name])))
      tl ((List.range nbTurn).map (fun i => i + 1))

/-- Two drones, one interior hub `A` (capacity 2) and a capacity-1 edge
`A-E`: the second drone must wait one turn at `A`, producing a wait step
`("A",1),("A",2)` in its path. -/
def mC6 : MapModel :=
  ⟨2, ⟨"S", 0, 0, "normal", none, 2⟩, ⟨"E", 3, 3, "normal", none, 2⟩,
   [⟨"A", 1, 1, "normal", none, 2⟩],
   [⟨"S", "A", 2⟩, ⟨"A", "E", 1⟩]⟩

/-! ### File scanner (Parser.scan_file_format, src/src/parser.py)

Regexes are embedded as deterministic matchers over `List Char`: every
quantifier in the three anchored patterns is followed by a character it
cannot consume, so greedy matching with no backtracking is equivalent.
Whitespace is the Python `str.strip` / regex `\s` set (ASCII); digits and
names are ASCII, matching the intended map-file alphabet. -/

def isWsC (c : Char) : Bool :=
  c == ' ' || c == '\t' || c == '\n' || c == '\r' || c == '\x0b' || c == '\x0c'

def isDigitC (c : Char) : Bool := '0' ≤ c && c ≤ '9'

/-- Character class `[^\s-]` of hub-name tokens. -/
def nameCharC (c : Char) : Bool := !isWsC c && c != '-'

def skipWs (s : List Char) : List Char := s.dropWhile isWsC

/-- Python `str.startswith`. -/
def pyStartsWith (s pre : String) : Bool := pre.data.isPrefixOf s.data

def trimC (s : List Char) : List Char :=
  ((s.dropWhile isWsC).reverse.dropWhile isWsC).reverse

/-- Python `str.strip()`. -/
def pyStrip (s : String) : String := ⟨trimC s.data⟩

/-- Literal prefix consumption: `some rest` when `lit` is a prefix. -/
def litPrefix (lit : List Char) (s : List Char) : Option (List Char) :=
  if lit.isPrefixOf s then some (s.drop lit.length) else none

/-- Regex `\s+`: at least one whitespace character, consumed greedily. -/
def wsPlus : List Char → Option (List Char)
  | [] => none
  | c :: rest => if isWsC c then some (skipWs rest) else none

/-- Groups extracted by one matched line of `scan_file_format` (the
`g.groups()` tuples appended to `valid_reg_groups`). -/
inductive PRec where
  | nb (n : String)
  | hub (kind name x y : String) (meta : Option String)
  | conn (n1 n2 : String) (meta : Option String)
deriving DecidableEq

/-- Group 0 of the record, as used by the singleton counters. -/
def recKind : PRec → String
  | .nb _ => "nb_drones"
  | .hub kind _ _ _ _ => kind
  | .conn _ _ _ => "connection"

/-- Tail `(?:\s+\[ … \])?\s*$` shared by the hub and connection patterns:
either the rest is all whitespace (group absent), or at least one space,
an opening bracket, arbitrary content up to the last closing bracket, and
only whitespace after it. The lazy inner group captures everything between
the brackets; `trim` reflects the hub pattern's inner `\s* … \s*`. -/
def bracketTail (trim : Bool) (r : List Char) : Option (Option String) :=
  if r.all isWsC then some none
  else
    match wsPlus r with
    | none => none
    | some r2 =>
      match r2 with
      | '[' :: r3 =>
        let rev := r3.reverse
        let rest := rev.dropWhile isWsC
        match rest with
        | ']' :: midrev =>
          some (some ⟨if trim then trimC midrev.reverse else midrev.reverse⟩)
        | _ => none
      | _ => none

/-- Matcher for `REG_NB = ^(nb_drones)\s*:\s*(\d+)\s*$`. -/
def matchNb (s : String) : Option PRec :=
  match litPrefix "nb_drones".data s.data with
  | none => none
  | some r1 =>
    match skipWs r1 with
    | ':' :: r3 =>
      let r4 := skipWs r3
      let digits := r4.takeWhile isDigitC
      if digits != [] && (r4.dropWhile isDigitC).all isWsC
      then some (.nb ⟨digits⟩) else none
    | _ => none

/-- Alternation `(start_hub|end_hub|hub)` tried in pattern order. -/
def hubKindPrefix (s : List Char) : Option (String × List Char) :=
  match litPrefix "start_hub".data s with
  | some r => some ("start_hub", r)
  | none =>
    match litPrefix "end_hub".data s with
    | some r => some ("end_hub", r)
    | none =>
      match litPrefix "hub".data s with
      | some r => some ("hub", r)
      | none => none

/-- Matcher for `REG_HUB =
`^(start_hub|end_hub|hub):\s*([^\s-]+)\s+(\d+)\s+(\d+)\s*(?:\s+\[\s*(.*?)\s*\])?\s*$`. -/
def matchHub (s : String) : Option PRec :=
  match hubKindPrefix s.data with
  | none => none
  | some (kind, r1) =>
    match r1 with
    | ':' :: r2 =>
      let r3 := skipWs r2
      let name := r3.takeWhile nameCharC
      if name.isEmpty then none
      else
        match wsPlus (r3.dropWhile nameCharC) with
        | none => none
        | some r4 =>
          let xs := r4.takeWhile isDigitC
          if xs.isEmpty then none
          else
            match wsPlus (r4.dropWhile isDigitC) with
            | none => none
            | some r5 =>
              let ys := r5.takeWhile isDigitC
              if ys.isEmpty then none
              else
                match bracketTail true (r5.dropWhile isDigitC) with
                | none => none
                | some meta => some (.hub kind ⟨name⟩ ⟨xs⟩ ⟨ys⟩ meta)
    | _ => none

/-- Matcher for `REG_CONNECTION =
`^(connection)\s*:\s*([^\s-]+)\s*-\s*([^\s-]+)\s*(?:\s+\[(.*?)\])?\s*$`. -/
def matchConn (s : String) : Option PRec :=
  match litPrefix "connection".data s.data with
  | none => none
  | some r1 =>
    match skipWs r1 with
    | ':' :: r2 =>
      let r3 := skipWs r2
      let n1 := r3.takeWhile nameCharC
      if n1.isEmpty then none
      else
        match skipWs (r3.dropWhile nameCharC) with
        | '-' :: r4 =>
          let r5 := skipWs r4
          let n2 := r5.takeWhile nameCharC
          if n2.isEmpty then none
          else
            match bracketTail false (r5.dropWhile nameCharC) with
            | none => none
            | some meta => some (.conn ⟨n1⟩ ⟨n2⟩ meta)
        | _ => none
    | _ => none

/-- One line against the `REGEX` list, in order: first match wins. -/
def matchRec (s : String) : Option PRec :=
  match matchNb s with
  | some r => some r
  | none =>
    match matchHub s with
    | some r => some r
    | none => matchConn s

/-- Comment/blank filtering of `scan_file_format`: drop raw lines starting
with `#` and lines blank after stripping; keep stripped content. -/
def scanLines (raw : List String) : List String :=
  (raw.filter (fun l => !pyStartsWith l "#" && pyStrip l != "")).map pyStrip

def countKind (recs : List PRec) (k : String) : Nat :=
  (recs.filter (fun r => recKind r = k)).length

/-- Error accumulation of `scan_file_format`, in report order: the
first-line check, one syntax error per unmatched line, then the three
singleton-count checks (messages abbreviated to tags). -/
def scanErrors (lines : List String) : List String :=
  (match lines with
   | [] => []
   | l0 :: _ => if pyStartsWith l0 "nb_drones" then [] else ["first_line"]) ++
  (lines.filterMap
    (fun l => if (matchRec l).isSome then none else some ("syntax:" ++ l))) ++
  ((if countKind (lines.filterMap matchRec) "nb_drones" = 1 then []
    else ["nb_drones_count"]) ++
   (if countKind (lines.filterMap matchRec) "start_hub" = 1 then []
    else ["start_hub_count"]) ++
   (if countKind (lines.filterMap matchRec) "end_hub" = 1 then []
    else ["end_hub_count"]))

/-- Embedding of `Parser.scan_file_format` on the file's lines: `none` for
an empty (all-comment/blank) file or any accumulated error, otherwise the
matched groups of every line in order. -/
def scanFileFormat (raw : List String) : Option (List PRec) :=
  match scanLines raw with
  | [] => none
  | l0 :: rest =>
    if scanErrors (l0 :: rest) = [] then some ((l0 :: rest).filterMap matchRec)
    else none

/-! ## Theorems -/

theorem dget?_dset_self {α β : Type} [DecidableEq α] (d : List (α × β)) (k : α) (v : β) :
    dget? (dset d k v) k = some v := by
  induction d with
  | nil => simp [dget?, dset]
  | cons kv rest ih =>
    by_cases h : kv.1 = k
    · simp [dset, h, dget?]
    · simp [dset, h, dget?, ih]

theorem dget?_dset_ne {α β : Type} [DecidableEq α] (d : List (α × β)) (k k' : α) (v : β)
    (h : k ≠ k') : dget? (dset d k v) k' = dget? d k' := by
  induction d with
  | nil => simp [dget?, dset, h]
  | cons kv rest ih =>
    by_cases hk : kv.1 = k
    · simp [dset, hk, dget?, h]
    · by_cases hk' : kv.1 = k'
      · simp [dset, hk, dget?, hk', Ne.symm h]
      · simp [dset, hk, dget?, hk', ih]

/-- C10: for every location key, turn and capacity (including 0), with
`is_endpoint = false`, `_is_available` returns `True` whenever the
reservation table has no entry at `(location, turn)`; consequently booking
that slot afterwards stores the drone as its single occupant, so a hub with
`max_drones = 0` or an edge with `max_link_capacity = 0` admits the first
drone that reserves it at a previously unreserved turn. -/
theorem c10_zero_capacity_admission (res : Reservation) (location id : String)
    (turn capacity : Nat) (h : dget? res (location, turn) = none) :
    isAvailable res location turn capacity false = true ∧
    dget? (bookReservation res id location turn) (location, turn) = some [id] := by
  refine ⟨by simp [isAvailable, h], ?_⟩
  simp [bookReservation, h, dget?_dset_self]

/-- Witness for C10 at a concrete empty table, zero capacity and turn 1. -/
theorem c10_zero_capacity_admission_witness :
    isAvailable [] "H" 1 0 false = true ∧
    dget? (bookReservation [] "D1" "H" 1) ("H", 1) = some ["D1"] :=
  c10_zero_capacity_admission [] "H" "D1" 1 0 rfl

theorem mem_waitChainVisited {j k : Nat} (h : ("S", j) ∈ waitChainVisited k) : j < k := by
  induction k with
  | zero => simp [waitChainVisited] at h
  | succ n ih =>
    simp only [waitChainVisited, List.mem_cons, Prod.mk.injEq] at h
    rcases h with ⟨-, h⟩ | h
    · omega
    · exact Nat.lt_succ_of_lt (ih h)

theorem waitChainPath_succ (k : Nat) :
    waitChainPath (k + 1) = waitChainPath k ++ [("S", k + 1)] := by
  simp [waitChainPath, List.range_succ]

theorem waitChain_step (fuel k : Nat) :
    findPathLoop (initRegistry mC2) "S" "E" [] (fuel + 1)
        [waitChainState k] (waitChainVisited k) =
      findPathLoop (initRegistry mC2) "S" "E" [] fuel
        [waitChainState (k + 1)] (waitChainVisited (k + 1)) := by
  have hmem : (("S", k) : String × Nat) ∉ waitChainVisited k := fun h =>
    absurd (mem_waitChainVisited h) (Nat.lt_irrefl k)
  have hrec : recordsAt (initRegistry mC2) "S" = [] := by decide
  simp only [findPathLoop, waitChainState]
  rw [if_neg hmem, if_neg (by decide : ¬ ("S" : String) = "E")]
  simp only [hrec, expandMoves, List.foldl]
  simp +decide only [waitPush, waitState, isAvailable, if_true, heapPush]
  rw [← waitChainPath_succ]
  rfl

theorem waitChain_fuelOut (fuel : Nat) : ∀ k,
    findPathLoop (initRegistry mC2) "S" "E" [] fuel
        [waitChainState k] (waitChainVisited k) = (.fuelOut, []) := by
  induction fuel with
  | zero => intro k; rfl
  | succ n ih =>
    intro k
    rw [waitChain_step n k]
    exact ih (k + 1)

/-- C2: on the valid network `mC2`, whose end hub is unreachable in the
current (empty) reservation state, `_find_path` never terminates: for every
number of loop iterations the search is still running (`fuelOut`), so the
heap never empties, no path and no `None` is ever returned, and
`generate_solution` never finishes. This contradicts the claim (and the
code's own docstring, which promises `None` when no path is found): the
wait-in-place push at the endpoint-exempt start hub succeeds every
iteration, so the heap can never become empty. -/
theorem c2_unreachable_end_never_terminates : ∀ fuel : Nat,
    (findPath (initRegistry mC2) "S" "E" [] fuel).1 = SearchResult.fuelOut ∧
    generateSolution mC2 fuel = none := by
  intro fuel
  have h0 : findPathLoop (initRegistry mC2) "S" "E" [] fuel
      [waitChainState 0] (waitChainVisited 0) = (.fuelOut, []) :=
    waitChain_fuelOut fuel 0
  have h1 : (findPath (initRegistry mC2) "S" "E" [] fuel).1 = SearchResult.fuelOut := by
    have : findPath (initRegistry mC2) "S" "E" [] fuel = (.fuelOut, []) := h0
    rw [this]
  refine ⟨h1, ?_⟩
  show solveDrones (initRegistry mC2) "S" "E" fuel ["D1"] [] [] = none
  simp only [solveDrones, h1]

/-! ### Order lemmas for the frontier -/

theorem charListLtb_irrefl (l : List Char) : charListLtb l l = false := by
  induction l with
  | nil => rfl
  | cons a as ih => simp [charListLtb, lt_irrefl, ih]

theorem charListLtb_trans : ∀ (a b c : List Char), charListLtb a b = true →
    charListLtb b c = true → charListLtb a c = true := by
  intro a
  induction a with
  | nil =>
    intro b c h1 h2
    cases b with
    | nil => simp [charListLtb] at h1
    | cons y ys =>
      cases c with
      | nil => simp [charListLtb] at h2
      | cons z zs => simp [charListLtb]
  | cons x xs ih =>
    intro b c h1 h2
    cases b with
    | nil => simp [charListLtb] at h1
    | cons y ys =>
      cases c with
      | nil => simp [charListLtb] at h2
      | cons z zs =>
        simp only [charListLtb, Bool.or_eq_true, Bool.and_eq_true, decide_eq_true_eq,
          beq_iff_eq] at h1 h2 ⊢
        rcases h1 with h1 | ⟨e1, t1⟩
        · rcases h2 with h2 | ⟨e2, t2⟩
          · exact Or.inl (lt_trans h1 h2)
          · exact Or.inl (by rw [← e2]; exact h1)
        · rcases h2 with h2 | ⟨e2, t2⟩
          · exact Or.inl (by rw [e1]; exact h2)
          · exact Or.inr ⟨e1.trans e2, ih ys zs t1 t2⟩

theorem strLtb_irrefl (s : String) : strLtb s s = false := charListLtb_irrefl s.data

theorem strLtb_trans {a b c : String} (h1 : strLtb a b = true) (h2 : strLtb b c = true) :
    strLtb a c = true := charListLtb_trans a.data b.data c.data h1 h2

theorem stampLtb_irrefl (a : String × Nat) : stampLtb a a = false := by
  simp [stampLtb, lt_irrefl, strLtb_irrefl]

theorem pathLtb_irrefl (p : Path) : pathLtb p p = false := by
  induction p with
  | nil => rfl
  | cons x xs ih => simp [pathLtb, stampLtb_irrefl, ih]

theorem stateLtb_irrefl (a : SState) : stateLtb a a = false := by
  simp [stateLtb, lt_irrefl, pathLtb_irrefl, strLtb_irrefl]

theorem stampLtb_trans {a b c : String × Nat} (h1 : stampLtb a b = true)
    (h2 : stampLtb b c = true) : stampLtb a c = true := by
  simp only [stampLtb, Bool.or_eq_true, Bool.and_eq_true, decide_eq_true_eq,
    beq_iff_eq] at h1 h2 ⊢
  rcases h1 with h1 | ⟨e1, h1⟩
  · rcases h2 with h2 | ⟨e2, h2⟩
    · exact Or.inl (strLtb_trans h1 h2)
    · exact Or.inl (by rw [← e2]; exact h1)
  · rcases h2 with h2 | ⟨e2, h2⟩
    · exact Or.inl (by rw [e1]; exact h2)
    · exact Or.inr ⟨e1.trans e2, lt_trans h1 h2⟩

theorem pathLtb_trans : ∀ (a b c : Path), pathLtb a b = true → pathLtb b c = true →
    pathLtb a c = true := by
  intro a
  induction a with
  | nil =>
    intro b c h1 h2
    cases b with
    | nil => simp [pathLtb] at h1
    | cons y ys =>
      cases c with
      | nil => simp [pathLtb] at h2
      | cons z zs => simp [pathLtb]
  | cons x xs ih =>
    intro b c h1 h2
    cases b with
    | nil => simp [pathLtb] at h1
    | cons y ys =>
      cases c with
      | nil => simp [pathLtb] at h2
      | cons z zs =>
        simp only [pathLtb, Bool.or_eq_true, Bool.and_eq_true, beq_iff_eq] at h1 h2 ⊢
        rcases h1 with h1 | ⟨e1, t1⟩
        · rcases h2 with h2 | ⟨e2, t2⟩
          · exact Or.inl (stampLtb_trans h1 h2)
          · exact Or.inl (by rw [← e2]; exact h1)
        · rcases h2 with h2 | ⟨e2, t2⟩
          · exact Or.inl (by rw [e1]; exact h2)
          · exact Or.inr ⟨e1.trans e2, ih ys zs t1 t2⟩

theorem stateLtb_trans {a b c : SState} (h1 : stateLtb a b = true)
    (h2 : stateLtb b c = true) : stateLtb a c = true := by
  simp only [stateLtb, Bool.or_eq_true, Bool.and_eq_true, decide_eq_true_eq,
    beq_iff_eq] at h1 h2 ⊢
  rcases h1 with h1 | ⟨e1, h1⟩
  · rcases h2 with h2 | ⟨e2, h2⟩
    · exact Or.inl (lt_trans h1 h2)
    · exact Or.inl (lt_of_lt_of_eq h1 e2)
  · rcases h2 with h2 | ⟨e2, h2⟩
    · exact Or.inl (lt_of_eq_of_lt e1 h2)
    · refine Or.inr ⟨e1.trans e2, ?_⟩
      rcases h1 with h1 | ⟨f1, h1⟩
      · rcases h2 with h2 | ⟨f2, h2⟩
        · exact Or.inl (lt_trans h1 h2)
        · exact Or.inl (lt_of_lt_of_eq h1 f2)
      · rcases h2 with h2 | ⟨f2, h2⟩
        · exact Or.inl (lt_of_eq_of_lt f1 h2)
        · refine Or.inr ⟨f1.trans f2, ?_⟩
          rcases h1 with h1 | ⟨g1, h1⟩
          · rcases h2 with h2 | ⟨g2, h2⟩
            · exact Or.inl (strLtb_trans h1 h2)
            · exact Or.inl (by rw [← g2]; exact h1)
          · rcases h2 with h2 | ⟨g2, h2⟩
            · exact Or.inl (by rw [g1]; exact h2)
            · exact Or.inr ⟨g1.trans g2, pathLtb_trans _ _ _ h1 h2⟩

theorem stateLtb_asymm {a b : SState} (h : stateLtb a b = true) : stateLtb b a = false := by
  cases hba : stateLtb b a with
  | false => rfl
  | true =>
    have h0 := stateLtb_trans h hba
    rw [stateLtb_irrefl] at h0
    exact h0.symm

theorem mem_heapPush {heap : List SState} {s y : SState} :
    y ∈ heapPush heap s ↔ y = s ∨ y ∈ heap := by
  induction heap with
  | nil => simp [heapPush]
  | cons x xs ih =>
    by_cases h : stateLtb s x = true
    · show y ∈ (if stateLtb s x then s :: x :: xs else x :: heapPush xs s) ↔ _
      rw [if_pos h]
      simp
    · have h' : ¬ (stateLtb s x = true) := h
      show y ∈ (if stateLtb s x then s :: x :: xs else x :: heapPush xs s) ↔ _
      rw [if_neg h']
      simp [ih]
      tauto

theorem hsorted_heapPush {heap : List SState} (hs : HSorted heap) (s : SState) :
    HSorted (heapPush heap s) := by
  induction heap with
  | nil => simp [heapPush, HSorted]
  | cons x xs ih =>
    obtain ⟨hx, hxs⟩ := List.pairwise_cons.mp hs
    by_cases hlt : stateLtb s x = true
    · show HSorted (if stateLtb s x then s :: x :: xs else x :: heapPush xs s)
      rw [if_pos hlt]
      refine List.Pairwise.cons ?_ (List.Pairwise.cons hx hxs)
      intro y hy
      rcases List.mem_cons.mp hy with rfl | hy
      · exact stateLtb_asymm hlt
      · cases hys : stateLtb y s with
        | false => rfl
        | true =>
          have h1 : stateLtb y x = true := stateLtb_trans hys hlt
          rw [hx y hy] at h1
          exact h1.symm
    · have hlt' : stateLtb s x = false := by
        cases h : stateLtb s x
        · rfl
        · exact absurd h hlt
      show HSorted (if stateLtb s x then s :: x :: xs else x :: heapPush xs s)
      rw [if_neg hlt]
      refine List.Pairwise.cons ?_ (ih hxs)
      intro y hy
      rcases mem_heapPush.mp hy with rfl | hy
      · exact hlt'
      · exact hx y hy

/-! ### Membership in the pushed frontier -/

theorem mem_pushMove {sh eh : String} {res : Reservation} {move : SState}
    {heap : List SState} {d : Package} {x : SState}
    (h : x ∈ pushMove sh eh res move heap d) :
    x ∈ heap ∨
      (isAvailable res d.zone (move.turn + d.cost) d.capacity
          (d.zone == sh || d.zone == eh) = true ∧
       isAvailable res (linkStr move.hub d.zone) move.turn d.link_capacity false = true ∧
       x = movedState move d) := by
  unfold pushMove at h
  split at h
  next hA =>
    split at h
    next hB =>
      rcases mem_heapPush.mp h with rfl | hx
      · exact Or.inr ⟨hA, hB, rfl⟩
      · exact Or.inl hx
    next => exact Or.inl h
  next => exact Or.inl h

theorem mem_expandMoves {sh eh : String} {res : Reservation} {move : SState} {x : SState} :
    ∀ {pkgs : List Package} {heap : List SState}, x ∈ expandMoves sh eh res move heap pkgs →
    x ∈ heap ∨ ∃ d ∈ pkgs,
      isAvailable res d.zone (move.turn + d.cost) d.capacity
          (d.zone == sh || d.zone == eh) = true ∧
      isAvailable res (linkStr move.hub d.zone) move.turn d.link_capacity false = true ∧
      x = movedState move d := by
  intro pkgs
  induction pkgs with
  | nil => intro heap h; exact Or.inl h
  | cons d ds ih =>
    intro heap h
    have h' : x ∈ expandMoves sh eh res move (pushMove sh eh res move heap d) ds := h
    rcases ih h' with hx | ⟨d', hd', hc⟩
    · rcases mem_pushMove hx with hx | hnew
      · exact Or.inl hx
      · exact Or.inr ⟨d, List.mem_cons_self d ds, hnew⟩
    · exact Or.inr ⟨d', List.mem_cons_of_mem d hd', hc⟩

theorem mem_waitPush {reg : Registry} {sh eh : String} {res : Reservation} {move : SState}
    {heap : List SState} {x : SState} (h : x ∈ waitPush reg sh eh res move heap) :
    x ∈ heap ∨
      (isAvailable res move.hub (move.turn + 1) (idxCap reg move.hub)
          (move.hub == sh || move.hub == eh) = true ∧
       x = waitState move) := by
  unfold waitPush at h
  split at h
  next hA =>
    rcases mem_heapPush.mp h with rfl | hx
    · exact Or.inr ⟨hA, rfl⟩
    · exact Or.inl hx
  next => exact Or.inl h

/-! ### Claim C7 -/

/-- C7 counterexample: on the valid network `mC7`, expanding the initial
state `(0, 0, "S", [])` pushes the move to hub `B` first, the move to hub
`A` second and the wait at `S` last — all three with turn 1 and priority
score 0 — yet the resulting frontier pops the `A` state first. States equal
on `(t, p)` are therefore not popped in insertion order: the tie is broken
by the remaining tuple components (hub string, then path). -/
theorem c7_counterexample :
    validNetwork mC7 ∧
    (recordsAt (initRegistry mC7) "S").map Package.zone = ["B", "A"] ∧
    waitPush (initRegistry mC7) "S" "E" [] ⟨0, 0, "S", []⟩
        (expandMoves "S" "E" [] ⟨0, 0, "S", []⟩ [] (recordsAt (initRegistry mC7) "S")) =
      [⟨1, 0, "A", [("A", 1)]⟩, ⟨1, 0, "B", [("B", 1)]⟩, ⟨1, 0, "S", [("S", 1)]⟩] := by
  refine ⟨by decide, by decide, by decide⟩

/-- C7 (amended): during `_find_path`, states are popped from the frontier
in min-order of the full Python tuple comparison — first by arrival turn,
then by accumulated priority score (decremented by 1 exactly when the
move's target zone is `"priority"`), and ties on both are resolved by the
remaining tuple components (target hub string, then path, lexicographically)
rather than by insertion order: pushing preserves the sortedness invariant,
and the popped head is minimal among the frontier states. -/
theorem c7_amended_pop_order :
    (∀ (heap : List SState) (s : SState), HSorted heap → HSorted (heapPush heap s)) ∧
    (∀ (m : SState) (t : List SState), HSorted (m :: t) → ∀ x ∈ m :: t,
      stateLtb x m = false) ∧
    (∀ (sh eh : String) (res : Reservation) (move : SState) (pkgs : List Package)
       (heap : List SState) (x : SState), x ∈ expandMoves sh eh res move heap pkgs →
       x ∈ heap ∨ ∃ d ∈ pkgs, x = movedState move d ∧
         (movedState move d).prio =
           (if d.type == "priority" then move.prio - 1 else move.prio)) := by
  refine ⟨fun heap s hs => hsorted_heapPush hs s, ?_, ?_⟩
  · intro m t hs x hx
    rcases List.mem_cons.mp hx with rfl | hx
    · exact stateLtb_irrefl x
    · exact (List.pairwise_cons.mp hs).1 x hx
  · intro sh eh res move pkgs heap x hx
    rcases mem_expandMoves hx with hx | ⟨d, hd, _, _, heq⟩
    · exact Or.inl hx
    · exact Or.inr ⟨d, hd, heq, rfl⟩

/-- Witness for the amended C7 theorem at a concrete sorted frontier. -/
theorem c7_amended_pop_order_witness :
    HSorted (heapPush [⟨1, 0, "A", [("A", 1)]⟩] ⟨1, 0, "B", [("B", 1)]⟩) ∧
    stateLtb ⟨1, 0, "B", [("B", 1)]⟩ ⟨1, 0, "A", [("A", 1)]⟩ = false :=
  ⟨c7_amended_pop_order.1 _ _ (by simp [HSorted]),
   c7_amended_pop_order.2.1 ⟨1, 0, "A", [("A", 1)]⟩ [⟨1, 0, "B", [("B", 1)]⟩]
     (by decide) ⟨1, 0, "B", [("B", 1)]⟩ (by simp)⟩

/-! ### Registry characterization -/

theorem dget?_hubFold_of_not_mem (hs : List HubModel) (d : List (String × HubModel))
    (k : String) (hk : ∀ y ∈ hs, y.name ≠ k) :
    dget? (hs.foldl (fun d h => dset d h.name h) d) k = dget? d k := by
  induction hs generalizing d with
  | nil => rfl
  | cons x xs ih =>
    rw [List.foldl_cons, ih (dset d x.name x) (fun y hy => hk y (List.mem_cons_of_mem x hy)),
      dget?_dset_ne d x.name k x (hk x (List.mem_cons_self x xs))]

theorem dget?_hubFold_mem : ∀ (hs : List HubModel) (d : List (String × HubModel))
    (h : HubModel), h ∈ hs → (hs.map HubModel.name).Nodup →
    dget? (hs.foldl (fun d h => dset d h.name h) d) h.name = some h := by
  intro hs
  induction hs with
  | nil => intro d h hmem _; cases hmem
  | cons x xs ih =>
    intro d h hmem hnd
    rw [List.map_cons, List.nodup_cons] at hnd
    obtain ⟨hx, hnd⟩ := hnd
    rcases List.mem_cons.mp hmem with rfl | hmem
    · rw [List.foldl_cons, dget?_hubFold_of_not_mem xs (dset d h.name h) h.name ?_]
      · exact dget?_dset_self d h.name h
      · intro y hy heq
        exact hx (heq ▸ List.mem_map_of_mem HubModel.name hy)
    · rw [List.foldl_cons]
      exact ih (dset d x.name x) h hmem hnd

theorem dget?_hubFold_inv : ∀ (hs : List HubModel) (d : List (String × HubModel))
    (k : String) (v : HubModel),
    dget? (hs.foldl (fun d h => dset d h.name h) d) k = some v →
    (v ∈ hs ∧ v.name = k) ∨ dget? d k = some v := by
  intro hs
  induction hs with
  | nil => intro d k v h; exact Or.inr h
  | cons x xs ih =>
    intro d k v h
    rw [List.foldl_cons] at h
    rcases ih (dset d x.name x) k v h with ⟨hm, hn⟩ | h
    · exact Or.inl ⟨List.mem_cons_of_mem x hm, hn⟩
    · by_cases hk : x.name = k
      · rw [← hk, dget?_dset_self] at h
        injection h with h
        exact Or.inl ⟨by rw [← h]; exact List.mem_cons_self x xs, by rw [← h, hk]⟩
      · rw [dget?_dset_ne d x.name k x hk] at h
        exact Or.inr h

theorem indexHubs_mem (m : MapModel) (h : HubModel) (hmem : h ∈ allHubs m)
    (hnd : (hubNames m).Nodup) : dget? (indexHubs m) h.name = some h :=
  dget?_hubFold_mem (allHubs m) [] h hmem hnd

theorem indexHubs_inv (m : MapModel) (k : String) (v : HubModel)
    (h : dget? (indexHubs m) k = some v) : v ∈ allHubs m ∧ v.name = k := by
  rcases dget?_hubFold_inv (allHubs m) [] k v h with h | h
  · exact h
  · simp [dget?] at h

theorem dget?_baseFold_inv : ∀ (hs : List HubModel) (d : List (String × List Package))
    (k : String) (v : List Package),
    dget? (hs.foldl (fun d h => dset d h.name []) d) k = some v →
    v = [] ∨ dget? d k = some v := by
  intro hs
  induction hs with
  | nil => intro d k v h; exact Or.inr h
  | cons x xs ih =>
    intro d k v h
    rw [List.foldl_cons] at h
    rcases ih (dset d x.name []) k v h with h | h
    · exact Or.inl h
    · by_cases hk : x.name = k
      · rw [← hk, dget?_dset_self] at h
        injection h with h
        exact Or.inl h.symm
      · rw [dget?_dset_ne d x.name k [] hk] at h
        exact Or.inr h

theorem baseRecords_empty (m : MapModel) (k : String) :
    (dget? (baseRecords m) k).getD [] = [] := by
  cases h : dget? (baseRecords m) k with
  | none => rfl
  | some v =>
    rcases dget?_baseFold_inv (allHubs m) [] k v h with rfl | h
    · rfl
    · simp [dget?] at h

theorem addConn_eq (index : List (String × HubModel)) (recs : List (String × List Package))
    (c : ConnectionModel) (hub1 hub2 : HubModel)
    (e1 : dget? index c.zone_1 = some hub1) (e2 : dget? index c.zone_2 = some hub2) :
    addConn index recs c =
      if hub1.zone = "blocked" ∨ hub2.zone = "blocked" then recs
      else
        dset (dset recs c.zone_1 ((dget? recs c.zone_1).getD [] ++ [connPkg1 hub2 c]))
          c.zone_2
          ((dget? (dset recs c.zone_1 ((dget? recs c.zone_1).getD [] ++ [connPkg1 hub2 c]))
              c.zone_2).getD [] ++ [connPkg2 hub1 c]) := by
  unfold addConn
  rw [e1, e2]
  rfl

theorem addConn_eq_none_1 (index : List (String × HubModel))
    (recs : List (String × List Package)) (c : ConnectionModel)
    (e1 : dget? index c.zone_1 = none) : addConn index recs c = recs := by
  unfold addConn
  rw [e1]

theorem addConn_eq_none_2 (index : List (String × HubModel))
    (recs : List (String × List Package)) (c : ConnectionModel) (hub1 : HubModel)
    (e1 : dget? index c.zone_1 = some hub1) (e2 : dget? index c.zone_2 = none) :
    addConn index recs c = recs := by
  unfold addConn
  rw [e1, e2]

theorem mem_addConn (index : List (String × HubModel)) (recs : List (String × List Package))
    (c : ConnectionModel) (k : String) (d : Package)
    (h : d ∈ (dget? (addConn index recs c) k).getD []) :
    d ∈ (dget? recs k).getD [] ∨ addedBy index c k d := by
  cases e1 : dget? index c.zone_1 with
  | none => rw [addConn_eq_none_1 index recs c e1] at h; exact Or.inl h
  | some hub1 =>
    cases e2 : dget? index c.zone_2 with
    | none => rw [addConn_eq_none_2 index recs c hub1 e1 e2] at h; exact Or.inl h
    | some hub2 =>
      rw [addConn_eq index recs c hub1 hub2 e1 e2] at h
      by_cases hb : hub1.zone = "blocked" ∨ hub2.zone = "blocked"
      · rw [if_pos hb] at h
        exact Or.inl h
      · rw [if_neg hb] at h
        by_cases hk2 : c.zone_2 = k
        · rw [← hk2, dget?_dset_self] at h
          simp only [Option.getD_some] at h
          rcases List.mem_append.mp h with h | h
          · by_cases hk1 : c.zone_1 = c.zone_2
            · rw [← hk1, dget?_dset_self] at h
              simp only [Option.getD_some] at h
              rcases List.mem_append.mp h with h | h
              · rw [← hk2, ← hk1]
                exact Or.inl h
              · simp only [List.mem_singleton] at h
                exact Or.inr ⟨hub1, hub2, e1, e2, hb, Or.inl ⟨by rw [← hk2, ← hk1], h⟩⟩
            · rw [dget?_dset_ne recs c.zone_1 c.zone_2 _ hk1] at h
              rw [← hk2]
              exact Or.inl h
          · simp only [List.mem_singleton] at h
            exact Or.inr ⟨hub1, hub2, e1, e2, hb, Or.inr ⟨hk2.symm, h⟩⟩
        · rw [dget?_dset_ne _ c.zone_2 k _ hk2] at h
          by_cases hk1 : c.zone_1 = k
          · rw [← hk1, dget?_dset_self] at h
            simp only [Option.getD_some] at h
            rcases List.mem_append.mp h with h | h
            · rw [← hk1]
              exact Or.inl h
            · simp only [List.mem_singleton] at h
              exact Or.inr ⟨hub1, hub2, e1, e2, hb, Or.inl ⟨hk1.symm, h⟩⟩
          · rw [dget?_dset_ne recs c.zone_1 k _ hk1] at h
            exact Or.inl h

theorem mem_connFold : ∀ (conns : List ConnectionModel) (index : List (String × HubModel))
    (recs : List (String × List Package)) (k : String) (d : Package),
    d ∈ (dget? (conns.foldl (addConn index) recs) k).getD [] →
    d ∈ (dget? recs k).getD [] ∨ ∃ c ∈ conns, addedBy index c k d := by
  intro conns
  induction conns with
  | nil => intro index recs k d h; exact Or.inl h
  | cons c cs ih =>
    intro index recs k d h
    rw [List.foldl_cons] at h
    rcases ih index (addConn index recs c) k d h with h | ⟨c', hc', ha⟩
    · rcases mem_addConn index recs c k d h with h | ha
      · exact Or.inl h
      · exact Or.inr ⟨c, List.mem_cons_self c cs, ha⟩
    · exact Or.inr ⟨c', List.mem_cons_of_mem c hc', ha⟩

/-- Provenance and content of every adjacency-registry entry: it comes from
a network connection with non-blocked endpoints, and its fields are the
zone, cost, capacity and link capacity recorded by `init_registry`. -/
theorem recordsAt_initRegistry (m : MapModel) (k : String) (d : Package)
    (hd : d ∈ recordsAt (initRegistry m) k) :
    ∃ c ∈ m.connections, ∃ hk hz : HubModel,
      dget? (indexHubs m) k = some hk ∧ dget? (indexHubs m) d.zone = some hz ∧
      ((k = c.zone_1 ∧ d.zone = c.zone_2) ∨ (k = c.zone_2 ∧ d.zone = c.zone_1)) ∧
      hk.zone ≠ "blocked" ∧ hz.zone ≠ "blocked" ∧ d.type = hz.zone ∧
      d.cost = costOf hz.zone ∧ d.capacity = hz.max_drones ∧
      d.link_capacity = c.max_link_capacity := by
  have h0 : d ∈ (dget? (m.connections.foldl (addConn (indexHubs m)) (baseRecords m)) k).getD [] := hd
  rcases mem_connFold m.connections (indexHubs m) (baseRecords m) k d h0 with h | ⟨c, hc, ha⟩
  · rw [baseRecords_empty] at h
    cases h
  · obtain ⟨hub1, hub2, e1, e2, hnb, hkd⟩ := ha
    rw [not_or] at hnb
    obtain ⟨hnb1, hnb2⟩ := hnb
    rcases hkd with ⟨rfl, rfl⟩ | ⟨rfl, rfl⟩
    · exact ⟨c, hc, hub1, hub2, e1, e2, Or.inl ⟨rfl, rfl⟩, hnb1, hnb2, rfl, rfl, rfl, rfl⟩
    · exact ⟨c, hc, hub2, hub1, e2, e1, Or.inr ⟨rfl, rfl⟩, hnb2, hnb1, rfl, rfl, rfl, rfl⟩

/-- The registry built by `init_registry` never links a blocked hub. -/
theorem regNoBlocked_initRegistry (m : MapModel) : regNoBlocked (initRegistry m) := by
  intro k d hd
  rcases recordsAt_initRegistry m k d hd with ⟨c, hc, hk, hz, e1, e2, _, hnb1, hnb2, _⟩
  constructor
  · show (dget? (indexHubs m) k).map HubModel.zone ≠ some "blocked"
    rw [e1]
    simp [hnb1]
  · show (dget? (indexHubs m) d.zone).map HubModel.zone ≠ some "blocked"
    rw [e2]
    simp [hnb2]

/-! ### Search invariant preservation -/

theorem chainOk_append {reg : Registry} {sh eh : String} {res : Reservation} :
    ∀ (p : Path) (init x : String × Nat),
    chainOk reg sh eh res init p → stepOk reg sh eh res (p.getLastD init) x →
    chainOk reg sh eh res init (p ++ [x]) := by
  intro p
  induction p with
  | nil => intro init x _ hstep; exact ⟨hstep, trivial⟩
  | cons y ys ih =>
    intro init x hch hstep
    obtain ⟨h1, h2⟩ := hch
    refine ⟨h1, ih y x h2 ?_⟩
    rwa [List.getLastD_cons] at hstep

theorem stateInv_moved {reg : Registry} {sh eh : String} {res : Reservation}
    {move : SState} {d : Package}
    (hinv : stateInv reg sh eh res move) (hreg : regNoBlocked reg)
    (hd : d ∈ recordsAt reg move.hub)
    (hA : isAvailable res d.zone (move.turn + d.cost) d.capacity
      (d.zone == sh || d.zone == eh) = true)
    (hB : isAvailable res (linkStr move.hub d.zone) move.turn d.link_capacity false = true) :
    stateInv reg sh eh res (movedState move d) := by
  obtain ⟨hch, hlast, hbl⟩ := hinv
  have hstep : stepOk reg sh eh res (move.path.getLastD (sh, 0))
      (d.zone, move.turn + d.cost) := by
    rw [hlast]
    exact Or.inr ⟨d, hd, rfl, rfl, hA, hB⟩
  refine ⟨chainOk_append move.path (sh, 0) _ hch hstep, ?_, ?_⟩
  · show (move.path ++ [(d.zone, move.turn + d.cost)]).getLastD (sh, 0) = _
    rw [List.getLastD_concat]
    rfl
  · rcases hbl with ⟨hall, hcur⟩ | ⟨hsb, hcur, hall⟩
    · refine Or.inl ⟨?_, (hreg move.hub d hd).2⟩
      intro x hx
      rcases List.mem_append.mp hx with hx | hx
      · exact hall x hx
      · simp only [List.mem_singleton] at hx
        subst hx
        exact (hreg move.hub d hd).2
    · exfalso
      have hb := (hreg move.hub d hd).1
      rw [hcur] at hb
      exact hb hsb

theorem stateInv_wait {reg : Registry} {sh eh : String} {res : Reservation} {move : SState}
    (hinv : stateInv reg sh eh res move)
    (hA : isAvailable res move.hub (move.turn + 1) (idxCap reg move.hub)
      (move.hub == sh || move.hub == eh) = true) :
    stateInv reg sh eh res (waitState move) := by
  obtain ⟨hch, hlast, hbl⟩ := hinv
  have hstep : stepOk reg sh eh res (move.path.getLastD (sh, 0))
      (move.hub, move.turn + 1) := by
    rw [hlast]
    exact Or.inl ⟨rfl, rfl, hA⟩
  refine ⟨chainOk_append move.path (sh, 0) _ hch hstep, ?_, ?_⟩
  · show (move.path ++ [(move.hub, move.turn + 1)]).getLastD (sh, 0) = _
    rw [List.getLastD_concat]
    rfl
  · rcases hbl with ⟨hall, hcur⟩ | ⟨hsb, hcur, hall⟩
    · refine Or.inl ⟨?_, hcur⟩
      intro x hx
      rcases List.mem_append.mp hx with hx | hx
      · exact hall x hx
      · simp only [List.mem_singleton] at hx
        subst hx
        exact hcur
    · refine Or.inr ⟨hsb, hcur, ?_⟩
      intro x hx
      rcases List.mem_append.mp hx with hx | hx
      · exact hall x hx
      · simp only [List.mem_singleton] at hx
        subst hx
        exact hcur

theorem stateInv_init (reg : Registry) (sh eh : String) (res : Reservation) :
    stateInv reg sh eh res ⟨0, 0, sh, []⟩ := by
  refine ⟨trivial, rfl, ?_⟩
  by_cases hb : zoneAt reg sh = some "blocked"
  · exact Or.inr ⟨hb, rfl, by simp⟩
  · exact Or.inl ⟨by simp, hb⟩

/-- Every path returned by the search loop belongs to a frontier state that
satisfies the search invariant and sits at the end hub. -/
theorem findLoop_found (reg : Registry) (sh eh : String) (res : Reservation)
    (hreg : regNoBlocked reg) :
    ∀ (fuel : Nat) (heap : List SState) (visited : List (String × Nat)) (p : Path),
    (∀ s ∈ heap, stateInv reg sh eh res s) →
    (findPathLoop reg sh eh res fuel heap visited).1 = SearchResult.found p →
    ∃ s : SState, stateInv reg sh eh res s ∧ s.path = p ∧ s.hub = eh := by
  intro fuel
  induction fuel with
  | zero =>
    intro heap visited p _ h
    simp [findPathLoop] at h
  | succ n ih =>
    intro heap visited p hinv h
    cases heap with
    | nil => simp [findPathLoop] at h
    | cons move rest =>
      simp only [findPathLoop] at h
      split at h
      · exact ih rest visited p (fun s hs => hinv s (List.mem_cons_of_mem _ hs)) h
      · split at h
        next heq =>
          have h' : SearchResult.found move.path = SearchResult.found p := h
          obtain rfl : move.path = p := by injection h'
          exact ⟨move, hinv move (List.mem_cons_self _ _), rfl, heq⟩
        next hne =>
          refine ih _ _ p ?_ h
          intro s hs
          rcases mem_waitPush hs with hs | ⟨hA, rfl⟩
          · rcases mem_expandMoves hs with hs | ⟨d, hd, hA, hB, rfl⟩
            · exact hinv s (List.mem_cons_of_mem _ hs)
            · exact stateInv_moved (hinv move (List.mem_cons_self _ _)) hreg hd hA hB
          · exact stateInv_wait (hinv move (List.mem_cons_self _ _)) hA

/-- Specialization of `findLoop_found` to a full `_find_path` call. -/
theorem findPath_found_inv (reg : Registry) (sh eh : String) (res : Reservation)
    (fuel : Nat) (p : Path) (hreg : regNoBlocked reg)
    (h : (findPath reg sh eh res fuel).1 = SearchResult.found p) :
    ∃ s : SState, stateInv reg sh eh res s ∧ s.path = p ∧ s.hub = eh := by
  refine findLoop_found reg sh eh res hreg fuel [⟨0, 0, sh, []⟩] [] p ?_ h
  intro s hs
  simp only [List.mem_singleton] at hs
  subst hs
  exact stateInv_init reg sh eh res

/-! ### Claims C3 and C5 -/

theorem costOf_eq_specZoneCost {z : String} (hz : z ∈ validZones) (hb : z ≠ "blocked") :
    costOf z = specZoneCost z := by
  simp only [validZones, List.mem_cons, List.not_mem_nil, or_false] at hz
  rcases hz with rfl | rfl | rfl | rfl
  · rfl
  · exact absurd rfl hb
  · rfl
  · rfl

theorem start_ne_end_name (m : MapModel) (hnd : (hubNames m).Nodup) :
    m.start_hub.name ≠ m.end_hub.name := by
  have h : (m.start_hub.name :: m.end_hub.name :: m.hubs.map HubModel.name).Nodup := by
    simpa [hubNames, allHubs] using hnd
  intro heq
  exact (List.nodup_cons.mp h).1 (by rw [heq]; exact List.mem_cons_self _ _)

theorem stepOk_to_specStep (m : MapModel) (hv : validNetwork m) {res : Reservation}
    {prev next : String × Nat}
    (h : stepOk (initRegistry m) m.start_hub.name m.end_hub.name res prev next) :
    specStep m prev next := by
  obtain ⟨hvm, -⟩ := hv
  obtain ⟨-, hzs, -⟩ := hvm
  rcases h with ⟨h1, h2, -⟩ | ⟨d, hd, h1, h2, -, -⟩
  · exact Or.inl ⟨h1, h2⟩
  · rcases recordsAt_initRegistry m prev.1 d hd with
      ⟨c, hc, hk, hz, e1, e2, hdir, -, hnb2, -, hcost, -, -⟩
    have hzmem : hz ∈ allHubs m := (indexHubs_inv m d.zone hz e2).1
    refine Or.inr ⟨⟨c, hc, ?_⟩, hz, by rw [h1]; exact e2, hnb2, ?_⟩
    · rcases hdir with ⟨hk1, hk2⟩ | ⟨hk1, hk2⟩
      · exact Or.inl ⟨hk1.symm, by rw [h1, hk2]⟩
      · exact Or.inr ⟨hk1.symm, by rw [h1, hk2]⟩
    · rw [h2, hcost, costOf_eq_specZoneCost (hzs hz hzmem).2 hnb2]

theorem chainOk_to_specChain (m : MapModel) (hv : validNetwork m) {res : Reservation} :
    ∀ (p : Path) (prev : String × Nat),
    chainOk (initRegistry m) m.start_hub.name m.end_hub.name res prev p →
    specChain m prev p := by
  intro p
  induction p with
  | nil => intro prev _; trivial
  | cons x xs ih =>
    intro prev h
    exact ⟨stepOk_to_specStep m hv h.1, ih x h.2⟩

/-- C3: on a valid network, every path returned by `_find_path` is
continuous: each consecutive pair of stamps — including the pair formed by
the implicit start position `(start_hub, 0)` and the first stamp — is
either a wait (same hub, turn + 1) or a move along an undirected connection
of the network taking exactly the traversal cost of the target hub's zone
(1 for `normal` and `priority`, 2 for `restricted`). -/
theorem c3_path_continuity (m : MapModel) (hv : validNetwork m)
    (res : Reservation) (fuel : Nat) (p : Path)
    (hf : (findPath (initRegistry m) m.start_hub.name m.end_hub.name res fuel).1 =
      SearchResult.found p) :
    specChain m (m.start_hub.name, 0) p := by
  obtain ⟨s, ⟨hch, -, -⟩, rfl, -⟩ :=
    findPath_found_inv (initRegistry m) m.start_hub.name m.end_hub.name res fuel p
      (regNoBlocked_initRegistry m) hf
  exact chainOk_to_specChain m hv s.path (m.start_hub.name, 0) hch

/-- Witness for C3 on `mRestrict`: the returned path `[("R", 2), ("E", 3)]`
(first move into the restricted hub costs two turns) is continuous. -/
theorem c3_path_continuity_witness :
    validNetwork mRestrict ∧ specChain mRestrict (mRestrict.start_hub.name, 0) [("R", 2), ("E", 3)] :=
  ⟨by decide, c3_path_continuity mRestrict (by decide) [] 20 [("R", 2), ("E", 3)] (by decide)⟩

/-- C5: on a valid network, the adjacency registry contains no entry, in
either direction, for a connection one of whose endpoint hubs is blocked,
and consequently no path returned by `_find_path` contains a stamp at a hub
whose zone is `"blocked"`. -/
theorem c5_blocked_exclusion (m : MapModel) (hv : validNetwork m) :
    (∀ (k : String) (d : Package), d ∈ recordsAt (initRegistry m) k →
      zoneAt (initRegistry m) k ≠ some "blocked" ∧
      zoneAt (initRegistry m) d.zone ≠ some "blocked") ∧
    (∀ (res : Reservation) (fuel : Nat) (p : Path),
      (findPath (initRegistry m) m.start_hub.name m.end_hub.name res fuel).1 =
        SearchResult.found p →
      ∀ x ∈ p, zoneAt (initRegistry m) x.1 ≠ some "blocked") := by
  obtain ⟨hvm, -⟩ := hv
  obtain ⟨-, -, hnd, -⟩ := hvm
  refine ⟨fun k d hd => regNoBlocked_initRegistry m k d hd, ?_⟩
  intro res fuel p hf x hx
  obtain ⟨s, ⟨-, -, hbl⟩, rfl, hhub⟩ :=
    findPath_found_inv (initRegistry m) m.start_hub.name m.end_hub.name res fuel p
      (regNoBlocked_initRegistry m) hf
  rcases hbl with ⟨hall, -⟩ | ⟨-, hcur, -⟩
  · exact hall x hx
  · exact absurd (hcur.symm.trans hhub) (start_ne_end_name m hnd)

/-- Witness for C5 on `mBlocked`: the direct route is taken, the registry
entry at `"S"` goes to the non-blocked hub `"E"`, and the returned path
`[("E", 1)]` avoids the blocked hub `X`. -/
theorem c5_blocked_exclusion_witness :
    (zoneAt (initRegistry mBlocked) "S" ≠ some "blocked" ∧
     zoneAt (initRegistry mBlocked) "E" ≠ some "blocked") ∧
    (∀ x ∈ [(("E" : String), (1 : Nat))], zoneAt (initRegistry mBlocked) x.1 ≠ some "blocked") :=
  ⟨(c5_blocked_exclusion mBlocked (by decide)).1 "S" ⟨"E", "normal", 1, 1, 1⟩ (by decide),
   (c5_blocked_exclusion mBlocked (by decide)).2 [] 10 [("E", 1)] (by decide)⟩

/-! ### String order: totality and antisymmetry -/

theorem charListLtb_total : ∀ (a b : List Char),
    charListLtb a b = true ∨ charListLtb b a = true ∨ a = b := by
  intro a
  induction a with
  | nil =>
    intro b
    cases b with
    | nil => exact Or.inr (Or.inr rfl)
    | cons y ys => exact Or.inl (by simp [charListLtb])
  | cons x xs ih =>
    intro b
    cases b with
    | nil => exact Or.inr (Or.inl (by simp [charListLtb]))
    | cons y ys =>
      rcases lt_trichotomy x y with hxy | rfl | hxy
      · exact Or.inl (by simp [charListLtb, hxy])
      · rcases ih ys with h | h | rfl
        · exact Or.inl (by simp [charListLtb, h])
        · exact Or.inr (Or.inl (by simp [charListLtb, h]))
        · exact Or.inr (Or.inr rfl)
      · exact Or.inr (Or.inl (by simp [charListLtb, hxy]))

theorem strLeb_total {a b : String} (h : strLeb a b = false) : strLeb b a = true := by
  simp only [strLeb, strLtb, Bool.or_eq_false_iff, beq_eq_false_iff_ne] at h
  obtain ⟨h1, h2⟩ := h
  rcases charListLtb_total b.data a.data with hlt | hlt | heq
  · simp [strLeb, strLtb, hlt]
  · rw [hlt] at h1
    exact Bool.noConfusion h1
  · exact absurd (String.ext heq) (Ne.symm h2)

theorem strLeb_antisymm {a b : String} (h1 : strLeb a b = true) (h2 : strLeb b a = true) :
    a = b := by
  simp only [strLeb, strLtb, Bool.or_eq_true, beq_iff_eq] at h1 h2
  rcases h1 with h1 | h1
  · rcases h2 with h2 | h2
    · have h3 := charListLtb_trans a.data b.data a.data h1 h2
      rw [charListLtb_irrefl] at h3
      cases h3
    · exact h2.symm
  · exact h1

/-! ### Canonical edge labels -/

theorem hyphen_mem_linkStr (a b : String) : ('-' : Char) ∈ (linkStr a b).data := by
  unfold linkStr
  split <;> simp [String.data_append]

theorem append_hyphen_inj : ∀ {a a' b b' : List Char}, ('-' : Char) ∉ a → ('-' : Char) ∉ a' →
    a ++ '-' :: b = a' ++ '-' :: b' → a = a' ∧ b = b' := by
  intro a
  induction a with
  | nil =>
    intro a' b b' _ ha' h
    cases a' with
    | nil => simpa using h
    | cons y ys =>
      rw [List.nil_append, List.cons_append, List.cons.injEq] at h
      exact absurd (by rw [h.1]; exact List.mem_cons_self y ys) ha'
  | cons x xs ih =>
    intro a' b b' ha ha' h
    cases a' with
    | nil =>
      rw [List.nil_append, List.cons_append, List.cons.injEq] at h
      exact absurd (by rw [← h.1]; exact List.mem_cons_self x xs) ha
    | cons y ys =>
      rw [List.cons_append, List.cons_append, List.cons.injEq] at h
      obtain ⟨rfl, h⟩ := h
      obtain ⟨h1, h2⟩ := ih (fun hm => ha (List.mem_cons_of_mem x hm))
        (fun hm => ha' (List.mem_cons_of_mem x hm)) h
      exact ⟨by rw [h1], h2⟩

theorem linkStr_data (a b : String) : (linkStr a b).data =
    (if strLeb a b then a.data ++ '-' :: b.data else b.data ++ '-' :: a.data) := by
  unfold linkStr
  split <;> simp [String.data_append]

theorem linkStr_inj {a b a' b' : String} (ha : ('-' : Char) ∉ a.data)
    (hb : ('-' : Char) ∉ b.data) (ha' : ('-' : Char) ∉ a'.data)
    (hb' : ('-' : Char) ∉ b'.data) (h : linkStr a b = linkStr a' b') :
    (a = a' ∧ b = b') ∨ (a = b' ∧ b = a') := by
  have hd := congrArg String.data h
  rw [linkStr_data, linkStr_data] at hd
  by_cases h1 : strLeb a b = true <;> by_cases h2 : strLeb a' b' = true
  · rw [if_pos h1, if_pos h2] at hd
    obtain ⟨e1, e2⟩ := append_hyphen_inj ha ha' hd
    exact Or.inl ⟨String.ext e1, String.ext e2⟩
  · rw [if_pos h1, if_neg h2] at hd
    obtain ⟨e1, e2⟩ := append_hyphen_inj ha hb' hd
    exact Or.inr ⟨String.ext e1, String.ext e2⟩
  · rw [if_neg h1, if_pos h2] at hd
    obtain ⟨e1, e2⟩ := append_hyphen_inj hb ha' hd
    exact Or.inr ⟨String.ext e2, String.ext e1⟩
  · rw [if_neg h1, if_neg h2] at hd
    obtain ⟨e1, e2⟩ := append_hyphen_inj hb hb' hd
    exact Or.inl ⟨String.ext e2, String.ext e1⟩

theorem canonPair_eq_of_swap {c c' : ConnectionModel}
    (h1 : c.zone_1 = c'.zone_2) (h2 : c.zone_2 = c'.zone_1) :
    canonPair c = canonPair c' := by
  unfold canonPair
  rw [h1, h2]
  by_cases hab : strLeb c'.zone_2 c'.zone_1 = true <;>
    by_cases hba : strLeb c'.zone_1 c'.zone_2 = true
  · rw [if_pos hab, if_pos hba, strLeb_antisymm hab hba]
  · rw [if_pos hab, if_neg hba]
  · rw [if_neg hab, if_pos hba]
  · exact absurd (strLeb_total (Bool.eq_false_iff.mpr hab)) hba

/-! ### Connection uniqueness from the validator -/

theorem connsOk_facts : ∀ (conns : List ConnectionModel) (seen : List (String × String)),
    connsOk conns seen = true →
    (∀ c ∈ conns, c.zone_1 ≠ c.zone_2) ∧ (conns.map canonPair).Nodup ∧
    (∀ c ∈ conns, canonPair c ∉ seen) := by
  intro conns
  induction conns with
  | nil => intro seen _; exact ⟨by simp, by simp, by simp⟩
  | cons c cs ih =>
    intro seen h
    unfold connsOk at h
    split at h
    · cases h
    · split at h
      · cases h
      · next hself hseen =>
        obtain ⟨hs, hnd, hns⟩ := ih (canonPair c :: seen) h
        refine ⟨?_, ?_, ?_⟩
        · intro c' hc'
          rcases List.mem_cons.mp hc' with rfl | hc'
          · exact hself
          · exact hs c' hc'
        · rw [List.map_cons, List.nodup_cons]
          exact ⟨fun hm => by
            obtain ⟨c', hc', he⟩ := List.mem_map.mp hm
            exact (hns c' hc') (he ▸ List.mem_cons_self _ _), hnd⟩
        · intro c' hc'
          rcases List.mem_cons.mp hc' with rfl | hc'
          · exact hseen
          · exact fun hm => (hns c' hc') (List.mem_cons_of_mem _ hm)

theorem conn_unique (m : MapModel) (hok : connsOk m.connections [] = true)
    {c c' : ConnectionModel} (hc : c ∈ m.connections) (hc' : c' ∈ m.connections)
    (h : canonPair c = canonPair c') : c = c' :=
  List.inj_on_of_nodup_map (connsOk_facts m.connections [] hok).2.1 hc hc' h

/-! ### Booking arithmetic -/

theorem entryLen_book (res : Reservation) (id loc : String) (turn : Nat) (K : String × Nat) :
    entryLen (bookReservation res id loc turn) K =
      entryLen res K + (if (loc, turn) = K then 1 else 0) := by
  by_cases hK : (loc, turn) = K
  · rw [if_pos hK, ← hK]
    unfold bookReservation entryLen
    cases h : dget? res (loc, turn) with
    | none =>
      dsimp only
      rw [dget?_dset_self]
      rfl
    | some l =>
      dsimp only
      rw [dget?_dset_self]
      simp
  · rw [if_neg hK]
    unfold bookReservation entryLen
    cases h : dget? res (loc, turn) with
    | none =>
      dsimp only
      rw [dget?_dset_ne res (loc, turn) K [id] hK]
      omega
    | some l =>
      dsimp only
      rw [dget?_dset_ne res (loc, turn) K (l ++ [id]) hK]
      omega

theorem bookCount_cons2 (K : String × Nat) (x1 x2 : String × Nat) (rest : Path) :
    bookCount K (x1 :: x2 :: rest) =
      ((if x1.1 ≠ x2.1 ∧ (linkStr x1.1 x2.1, x1.2) = K then 1 else 0) +
       (if (x1.1, x1.2) = K then 1 else 0)) + bookCount K (x2 :: rest) := rfl

theorem entryLen_commit (id : String) (K : String × Nat) : ∀ (p : Path) (res : Reservation),
    entryLen (commitPath res id p) K = entryLen res K + bookCount K p := by
  intro p
  induction p with
  | nil => intro res; simp [commitPath, bookCount]
  | cons x1 rest ih =>
    intro res
    cases rest with
    | nil => simp [commitPath, bookCount, entryLen_book]
    | cons x2 rest2 =>
      show entryLen (commitPath (bookReservation
          (if x1.1 ≠ x2.1 then bookReservation res id (linkStr x1.1 x2.1) x1.2 else res)
          id x1.1 x1.2) id (x2 :: rest2)) K = _
      rw [ih, entryLen_book]
      by_cases hne : x1.1 ≠ x2.1
      · rw [if_pos hne, entryLen_book]
        show _ = entryLen res K + bookCount K (x1 :: x2 :: rest2)
        rw [bookCount_cons2]
        by_cases h1 : (linkStr x1.1 x2.1, x1.2) = K <;>
          by_cases h2 : ((x1.1 : String), x1.2) = K <;>
          simp [h1, h2, hne] <;> omega
      · rw [if_neg hne]
        show _ = entryLen res K + bookCount K (x1 :: x2 :: rest2)
        rw [bookCount_cons2]
        by_cases h2 : ((x1.1 : String), x1.2) = K <;> simp [h2, hne] <;> omega

/-! ### Chain facts: increasing turns, named hubs, recorded checks -/

theorem bookCount_single (K x : String × Nat) :
    bookCount K [x] = if (x.1, x.2) = K then 1 else 0 := rfl

theorem costOf_pos {z : String} (hz : z ∈ validZones) (hb : z ≠ "blocked") :
    1 ≤ costOf z := by
  rw [costOf_eq_specZoneCost hz hb]
  unfold specZoneCost
  split <;> omega

theorem regCost_pos (m : MapModel) (hv : validNetwork m) :
    ∀ (k : String) (d : Package), d ∈ recordsAt (initRegistry m) k → 1 ≤ d.cost := by
  intro k d hd
  obtain ⟨hvm, -⟩ := hv
  obtain ⟨-, hzs, -⟩ := hvm
  rcases recordsAt_initRegistry m k d hd with
    ⟨c, hc, hk, hz, e1, e2, hdir, hnb1, hnb2, htyp, hcost, hcap, hlink⟩
  rw [hcost]
  exact costOf_pos (hzs hz (indexHubs_inv m d.zone hz e2).1).2 hnb2

theorem chainOk_turn_chain {reg : Registry} {sh eh : String} {res : Reservation}
    (hcost : ∀ (k : String) (d : Package), d ∈ recordsAt reg k → 1 ≤ d.cost) :
    ∀ (p : Path) (prev : String × Nat), chainOk reg sh eh res prev p →
    List.Chain (fun a b : String × Nat => a.2 < b.2) prev p := by
  intro p
  induction p with
  | nil => intro prev _; exact List.Chain.nil
  | cons x rest ih =>
    intro prev h
    obtain ⟨hstep, hch⟩ := h
    refine List.Chain.cons ?_ (ih x hch)
    rcases hstep with ⟨-, h2, -⟩ | ⟨d, hd, -, h2, -, -⟩
    · omega
    · have := hcost prev.1 d hd
      omega

theorem chain_lt_pairwise : ∀ {p : Path} {prev : String × Nat},
    List.Chain (fun a b : String × Nat => a.2 < b.2) prev p →
    List.Pairwise (fun a b : String × Nat => a.2 < b.2) p ∧ ∀ x ∈ p, prev.2 < x.2 := by
  intro p
  induction p with
  | nil => intro prev _; exact ⟨List.Pairwise.nil, by simp⟩
  | cons x rest ih =>
    intro prev h
    cases h with
    | cons h1 h2 =>
      obtain ⟨hpw, hall⟩ := ih h2
      refine ⟨List.Pairwise.cons (fun y hy => hall y hy) hpw, ?_⟩
      intro y hy
      rcases List.mem_cons.mp hy with rfl | hy
      · exact h1
      · exact lt_trans h1 (hall y hy)

theorem chainOk_hub_entry {m : MapModel} {sh eh : String} {res : Reservation} :
    ∀ (p : Path) (prev : String × Nat),
    chainOk (initRegistry m) sh eh res prev p →
    (∃ hubp, dget? (indexHubs m) prev.1 = some hubp) →
    ∀ x ∈ p, ∃ hub, dget? (indexHubs m) x.1 = some hub := by
  intro p
  induction p with
  | nil => intro prev _ _ x hx; cases hx
  | cons y rest ih =>
    intro prev hch hprev x hx
    obtain ⟨hstep, hch2⟩ := hch
    have hy : ∃ hub, dget? (indexHubs m) y.1 = some hub := by
      rcases hstep with ⟨h1, -, -⟩ | ⟨d, hd, h1, -, -, -⟩
      · rw [h1]; exact hprev
      · rcases recordsAt_initRegistry m prev.1 d hd with
          ⟨c, hc, hk, hz, e1, e2, hdir, hnb1, hnb2, htyp, hcost, hcap, hlink⟩
        rw [h1]; exact ⟨hz, e2⟩
    rcases List.mem_cons.mp hx with rfl | hx
    · exact hy
    · exact ih y hch2 hy x hx

theorem name_hyphen_free (m : MapModel) (hv : validNetwork m) {s : String}
    (hs : s ∈ hubNames m) : ('-' : Char) ∉ s.data := by
  obtain ⟨hub, hmem, hname⟩ := List.mem_map.mp hs
  rw [← hname]
  exact hv.2 hub hmem

theorem chainOk_hyphen_free (m : MapModel) (hv : validNetwork m) {sh eh : String}
    {res : Reservation} {p : Path} {prev : String × Nat}
    (hch : chainOk (initRegistry m) sh eh res prev p)
    (hprev : ∃ hubp, dget? (indexHubs m) prev.1 = some hubp) :
    ∀ x ∈ p, ('-' : Char) ∉ x.1.data := by
  intro x hx
  obtain ⟨hub, hhub⟩ := chainOk_hub_entry p prev hch hprev x hx
  obtain ⟨hmem, hname⟩ := indexHubs_inv m x.1 hub hhub
  rw [← hname]
  exact hv.2 hub hmem

theorem chainOk_node_check {reg : Registry} {sh eh : String} {res : Reservation} :
    ∀ (p : Path) (prev : String × Nat), chainOk reg sh eh res prev p →
    ∀ x ∈ p, (x.1 == sh || x.1 == eh) = true ∨
      ∃ cap : Nat,
        (cap = idxCap reg x.1 ∨
         ∃ (k : String) (d : Package), d ∈ recordsAt reg k ∧ d.zone = x.1 ∧ cap = d.capacity) ∧
        isAvailable res x.1 x.2 cap false = true := by
  intro p
  induction p with
  | nil => intro prev _ x hx; cases hx
  | cons y rest ih =>
    intro prev hch x hx
    obtain ⟨hstep, hch2⟩ := hch
    rcases List.mem_cons.mp hx with rfl | hx
    · rcases hstep with ⟨h1, h2, h3⟩ | ⟨d, hd, h1, h2, h3, -⟩
      · rw [← h1] at h3
        rw [← h2] at h3
        cases hb : (x.1 == sh || x.1 == eh) with
        | true => exact Or.inl rfl
        | false =>
          right
          refine ⟨idxCap reg x.1, Or.inl rfl, ?_⟩
          rw [hb] at h3
          exact h3
      · rw [← h1] at h3
        rw [← h2] at h3
        cases hb : (x.1 == sh || x.1 == eh) with
        | true => exact Or.inl rfl
        | false =>
          right
          refine ⟨d.capacity, Or.inr ⟨prev.1, d, hd, h1.symm, rfl⟩, ?_⟩
          rw [hb] at h3
          exact h3
    · exact ih y hch2 x hx

theorem bookCount_turn_pos (K : String × Nat) : ∀ (p : Path),
    bookCount K p ≠ 0 → ∃ x ∈ p, x.2 = K.2 := by
  intro p
  induction p with
  | nil => intro h; exact absurd rfl h
  | cons x1 rest ih =>
    cases rest with
    | nil =>
      intro h
      rw [bookCount_single] at h
      by_cases he : ((x1.1 : String), x1.2) = K
      · exact ⟨x1, List.mem_cons_self _ _, by rw [← he]⟩
      · rw [if_neg he] at h
        exact absurd rfl h
    | cons x2 rest2 =>
      intro h
      rw [bookCount_cons2] at h
      by_cases h1 : x1.1 ≠ x2.1 ∧ (linkStr x1.1 x2.1, x1.2) = K
      · exact ⟨x1, List.mem_cons_self _ _, by rw [← h1.2]⟩
      · by_cases h2 : ((x1.1 : String), x1.2) = K
        · exact ⟨x1, List.mem_cons_self _ _, by rw [← h2]⟩
        · have h3 : bookCount K (x2 :: rest2) ≠ 0 := by
            simp only [if_neg h1, if_neg h2] at h
            simpa using h
          obtain ⟨x, hx, hxt⟩ := ih h3
          exact ⟨x, List.mem_cons_of_mem _ hx, hxt⟩

theorem bookCount_node_mem (K : String × Nat) (hK : ('-' : Char) ∉ K.1.data) :
    ∀ (p : Path), bookCount K p ≠ 0 → K ∈ p := by
  intro p
  induction p with
  | nil => intro h; exact absurd rfl h
  | cons x1 rest ih =>
    cases rest with
    | nil =>
      intro h
      rw [bookCount_single] at h
      by_cases he : ((x1.1 : String), x1.2) = K
      · exact List.mem_cons.mpr (Or.inl he.symm)
      · rw [if_neg he] at h
        exact absurd rfl h
    | cons x2 rest2 =>
      intro h
      rw [bookCount_cons2] at h
      by_cases he : x1.1 ≠ x2.1 ∧ (linkStr x1.1 x2.1, x1.2) = K
      · exfalso
        have hKe : K.1 = linkStr x1.1 x2.1 := by rw [← he.2]
        exact hK (hKe ▸ hyphen_mem_linkStr x1.1 x2.1)
      · by_cases hn : ((x1.1 : String), x1.2) = K
        · exact List.mem_cons.mpr (Or.inl hn.symm)
        · have h3 : bookCount K (x2 :: rest2) ≠ 0 := by
            simp only [if_neg he, if_neg hn] at h
            simpa using h
          exact List.mem_cons_of_mem x1 (ih h3)

theorem bookCount_le_one (K : String × Nat) : ∀ (p : Path),
    (∀ x ∈ p, ('-' : Char) ∉ x.1.data) →
    List.Pairwise (fun a b : String × Nat => a.2 < b.2) p →
    bookCount K p ≤ 1 := by
  intro p
  induction p with
  | nil => intro _ _; simp [bookCount]
  | cons x1 rest ih =>
    intro hhy hpw
    cases rest with
    | nil =>
      rw [bookCount_single]
      split <;> omega
    | cons x2 rest2 =>
      obtain ⟨hlt, hpw2⟩ := List.pairwise_cons.mp hpw
      rw [bookCount_cons2]
      by_cases hmix : ((if x1.1 ≠ x2.1 ∧ (linkStr x1.1 x2.1, x1.2) = K then 1 else 0) +
          (if (x1.1, x1.2) = K then 1 else 0)) = 0
      · rw [hmix]
        have := ih (fun x hx => hhy x (List.mem_cons_of_mem _ hx)) hpw2
        omega
      · have hx1 : K.2 = x1.2 := by
          by_cases h1 : x1.1 ≠ x2.1 ∧ (linkStr x1.1 x2.1, x1.2) = K
          · rw [← h1.2]
          · by_cases h2 : ((x1.1 : String), x1.2) = K
            · rw [← h2]
            · exact absurd (by simp [h1, h2]) hmix
        have htail : bookCount K (x2 :: rest2) = 0 := by
          by_contra hne
          obtain ⟨x, hx, hxt⟩ := bookCount_turn_pos K (x2 :: rest2) hne
          have := hlt x hx
          omega
        rw [htail]
        have hboth : ¬ ((x1.1 ≠ x2.1 ∧ (linkStr x1.1 x2.1, x1.2) = K) ∧
            ((x1.1 : String), x1.2) = K) := by
          rintro ⟨⟨-, hE⟩, hN⟩
          have hKe : K.1 = linkStr x1.1 x2.1 := by rw [← hE]
          have hKn : K.1 = x1.1 := by rw [← hN]
          exact (hhy x1 (List.mem_cons_self _ _)) (hKn ▸ hKe ▸ hyphen_mem_linkStr x1.1 x2.1)
        by_cases h1 : x1.1 ≠ x2.1 ∧ (linkStr x1.1 x2.1, x1.2) = K
        · by_cases h2 : ((x1.1 : String), x1.2) = K
          · exact absurd ⟨h1, h2⟩ hboth
          · simp [h1, h2]
        · by_cases h2 : ((x1.1 : String), x1.2) = K
          · simp [h1, h2]
          · simp [h1, h2]

theorem bookCount_edge_check {reg : Registry} {sh eh : String} {res : Reservation}
    (K : String × Nat) (hK : ('-' : Char) ∈ K.1.data) :
    ∀ (p : Path) (prev : String × Nat), chainOk reg sh eh res prev p →
    (∀ x ∈ p, ('-' : Char) ∉ x.1.data) →
    bookCount K p ≠ 0 →
    ∃ (a b : String) (d : Package), d ∈ recordsAt reg a ∧ d.zone = b ∧
      K.1 = linkStr a b ∧ ('-' : Char) ∉ a.data ∧ ('-' : Char) ∉ b.data ∧
      isAvailable res K.1 K.2 d.link_capacity false = true := by
  intro p
  induction p with
  | nil => intro prev _ _ h; exact absurd rfl h
  | cons x1 rest ih =>
    intro prev hch hhy h
    obtain ⟨hstep1, hch2⟩ := hch
    cases rest with
    | nil =>
      rw [bookCount_single] at h
      by_cases he : ((x1.1 : String), x1.2) = K
      · exfalso
        have hKn : K.1 = x1.1 := by rw [← he]
        exact (hhy x1 (List.mem_cons_self _ _)) (hKn ▸ hK)
      · rw [if_neg he] at h
        exact absurd rfl h
    | cons x2 rest2 =>
      rw [bookCount_cons2] at h
      by_cases he : x1.1 ≠ x2.1 ∧ (linkStr x1.1 x2.1, x1.2) = K
      · obtain ⟨hne12, hEK⟩ := he
        obtain ⟨hstep2, -⟩ := hch2
        rcases hstep2 with ⟨h1, -, -⟩ | ⟨d, hd, h1, -, -, h4⟩
        · exact absurd h1.symm hne12
        · refine ⟨x1.1, x2.1, d, hd, h1.symm, by rw [← hEK], hhy x1 (List.mem_cons_self _ _),
            hhy x2 (List.mem_cons_of_mem _ (List.mem_cons_self _ _)), ?_⟩
          have hK1 : K.1 = linkStr x1.1 x2.1 := by rw [← hEK]
          have hK2 : K.2 = x1.2 := by rw [← hEK]
          rw [hK1, hK2, h1]
          exact h4
      · by_cases hn : ((x1.1 : String), x1.2) = K
        · exfalso
          have hKn : K.1 = x1.1 := by rw [← hn]
          exact (hhy x1 (List.mem_cons_self _ _)) (hKn ▸ hK)
        · have h3 : bookCount K (x2 :: rest2) ≠ 0 := by
            simp only [if_neg he, if_neg hn] at h
            simpa using h
          exact ih x1 hch2 (fun x hx => hhy x (List.mem_cons_of_mem _ hx)) h3

/-! ### Capacity identification and the committed table bound -/

theorem isAvailable_false_cases {res : Reservation} {loc : String} {t cap : Nat}
    (h : isAvailable res loc t cap false = true) :
    dget? res (loc, t) = none ∨ entryLen res (loc, t) < cap := by
  unfold isAvailable at h
  rw [if_neg (by simp)] at h
  cases hres : dget? res (loc, t) with
  | none => exact Or.inl rfl
  | some l =>
    right
    rw [hres] at h
    unfold entryLen
    rw [hres]
    simpa using h

theorem interior_ne_endpoints (m : MapModel) (hnd : (hubNames m).Nodup)
    (h : HubModel) (hmem : h ∈ m.hubs) :
    h.name ≠ m.start_hub.name ∧ h.name ≠ m.end_hub.name := by
  have hlist : (m.start_hub.name :: m.end_hub.name :: m.hubs.map HubModel.name).Nodup := by
    simpa [hubNames, allHubs] using hnd
  obtain ⟨h1, h2⟩ := List.nodup_cons.mp hlist
  obtain ⟨h3, -⟩ := List.nodup_cons.mp h2
  constructor
  · intro he
    exact h1 (by rw [← he]; exact List.mem_cons_of_mem _ (List.mem_map_of_mem _ hmem))
  · intro he
    exact h3 (by rw [← he]; exact List.mem_map_of_mem _ hmem)

theorem canonPair_eq_of_pair {c c' : ConnectionModel}
    (h : (c.zone_1 = c'.zone_1 ∧ c.zone_2 = c'.zone_2) ∨
         (c.zone_1 = c'.zone_2 ∧ c.zone_2 = c'.zone_1)) :
    canonPair c = canonPair c' := by
  rcases h with ⟨h1, h2⟩ | ⟨h1, h2⟩
  · unfold canonPair
    rw [h1, h2]
  · exact canonPair_eq_of_swap h1 h2

theorem node_cap_eq (m : MapModel) (hv : validNetwork m) (h : HubModel)
    (hmem : h ∈ allHubs m) {cap : Nat}
    (hc : cap = idxCap (initRegistry m) h.name ∨
      ∃ (k : String) (d : Package), d ∈ recordsAt (initRegistry m) k ∧
        d.zone = h.name ∧ cap = d.capacity) :
    cap = h.max_drones := by
  have hnd : (hubNames m).Nodup := hv.1.2.2.1
  rcases hc with rfl | ⟨k, d, hd, hdz, rfl⟩
  · show ((dget? (indexHubs m) h.name).map HubModel.max_drones).getD 0 = _
    rw [indexHubs_mem m h hmem hnd]
    rfl
  · rcases recordsAt_initRegistry m k d hd with
      ⟨c, hc2, hk, hz, e1, e2, hdir, hnb1, hnb2, htyp, hcost, hcap, hlink⟩
    rw [hdz] at e2
    rw [indexHubs_mem m h hmem hnd] at e2
    injection e2 with e2
    rw [hcap, ← e2]

theorem edge_cap_eq (m : MapModel) (hv : validNetwork m) {c : ConnectionModel}
    (hcm : c ∈ m.connections) {a b : String} {d : Package}
    (hd : d ∈ recordsAt (initRegistry m) a) (hdz : d.zone = b)
    (hab : linkStr c.zone_1 c.zone_2 = linkStr a b)
    (hha : ('-' : Char) ∉ a.data) (hhb : ('-' : Char) ∉ b.data) :
    d.link_capacity = c.max_link_capacity := by
  have hconn := hv.1.2.2.2.2.2.2.2.1
  have hok : connsOk m.connections [] = true := hv.1.2.2.2.2.2.2.2.2
  have hhz1 := name_hyphen_free m hv (hconn c hcm).1
  have hhz2 := name_hyphen_free m hv (hconn c hcm).2
  rcases recordsAt_initRegistry m a d hd with
    ⟨c', hc', hk, hz, e1, e2, hdir, hnb1, hnb2, htyp, hcost, hcap, hlink⟩
  rw [hdz] at hdir
  have hpair : (c.zone_1 = a ∧ c.zone_2 = b) ∨ (c.zone_1 = b ∧ c.zone_2 = a) :=
    linkStr_inj hhz1 hhz2 hha hhb hab
  have hcp : canonPair c = canonPair c' := by
    apply canonPair_eq_of_pair
    rcases hpair with ⟨hp1, hp2⟩ | ⟨hp1, hp2⟩ <;> rcases hdir with ⟨hd1, hd2⟩ | ⟨hd1, hd2⟩
    · exact Or.inl ⟨hp1.trans hd1, hp2.trans hd2⟩
    · exact Or.inr ⟨hp1.trans hd1, hp2.trans hd2⟩
    · exact Or.inr ⟨hp1.trans hd2, hp2.trans hd1⟩
    · exact Or.inl ⟨hp1.trans hd2, hp2.trans hd1⟩
  have hceq : c = c' := conn_unique m hok hcm hc' hcp
  rw [hlink, hceq]

theorem commit_tableBound (m : MapModel) (hv : validNetwork m) {res : Reservation}
    {p : Path} (id : String)
    (hch : chainOk (initRegistry m) m.start_hub.name m.end_hub.name res
      (m.start_hub.name, 0) p)
    (hb : tableBound m res) : tableBound m (commitPath res id p) := by
  have hstart : ∃ hubp, dget? (indexHubs m)
      ((m.start_hub.name, (0 : Nat)) : String × Nat).1 = some hubp :=
    ⟨m.start_hub, indexHubs_mem m m.start_hub (by simp [allHubs]) hv.1.2.2.1⟩
  have hhy := chainOk_hyphen_free m hv hch hstart
  have hchain := chainOk_turn_chain (regCost_pos m hv) p (m.start_hub.name, 0) hch
  have hpw := (chain_lt_pairwise hchain).1
  constructor
  · intro h hmem t
    have hbint := hb.1 h hmem t
    rw [entryLen_commit]
    by_cases hc0 : bookCount (h.name, t) p = 0
    · omega
    · have hKh : ('-' : Char) ∉ ((h.name, t) : String × Nat).1.data :=
        hv.2 h (by simp [allHubs, hmem])
      have hle := bookCount_le_one (h.name, t) p hhy hpw
      have hmemp := bookCount_node_mem (h.name, t) hKh p hc0
      rcases chainOk_node_check p (m.start_hub.name, 0) hch (h.name, t) hmemp with
        hepp | ⟨cap, hcs, hav⟩
      · exfalso
        obtain ⟨hne1, hne2⟩ := interior_ne_endpoints m hv.1.2.2.1 h hmem
        simp only [Bool.or_eq_true, beq_iff_eq] at hepp
        rcases hepp with he | he
        · exact hne1 he
        · exact hne2 he
      · have hcap : cap = h.max_drones := node_cap_eq m hv h (by simp [allHubs, hmem]) hcs
        dsimp only at hav
        rcases isAvailable_false_cases hav with hnone | hlt
        · have hzero : entryLen res (h.name, t) = 0 := by
            unfold entryLen
            rw [hnone]
            rfl
          omega
        · rw [hcap] at hlt
          omega
  · intro c hcm t
    have hbedge := hb.2 c hcm t
    rw [entryLen_commit]
    by_cases hc0 : bookCount (linkStr c.zone_1 c.zone_2, t) p = 0
    · omega
    · have hle := bookCount_le_one (linkStr c.zone_1 c.zone_2, t) p hhy hpw
      obtain ⟨a, b, d, hd, hdz, hK1, hha, hhb, hav⟩ :=
        bookCount_edge_check (linkStr c.zone_1 c.zone_2, t) (hyphen_mem_linkStr _ _) p
          (m.start_hub.name, 0) hch hhy hc0
      have hcap := edge_cap_eq m hv hcm hd hdz hK1 hha hhb
      dsimp only at hav
      rcases isAvailable_false_cases hav with hnone | hlt
      · have hzero : entryLen res (linkStr c.zone_1 c.zone_2, t) = 0 := by
          unfold entryLen
          rw [hnone]
          rfl
        omega
      · rw [hcap] at hlt
        omega

theorem solveDrones_tableBound (m : MapModel) (hv : validNetwork m) (fuel : Nat) :
    ∀ (ids : List String) (res : Reservation) (sol sol' : List (String × Path))
      (res' : Reservation), tableBound m res →
    solveDrones (initRegistry m) m.start_hub.name m.end_hub.name fuel ids res sol =
      some (sol', res') →
    tableBound m res' := by
  intro ids
  induction ids with
  | nil =>
    intro res sol sol' res' hb h
    simp only [solveDrones] at h
    injection h with h
    rw [Prod.mk.injEq] at h
    obtain ⟨-, h2⟩ := h
    rw [← h2]
    exact hb
  | cons id ids ih =>
    intro res sol sol' res' hb h
    simp only [solveDrones] at h
    split at h
    · exact Option.noConfusion h
    · exact ih res sol sol' res' hb h
    · next p heq =>
      split at h
      · exact ih res sol sol' res' hb h
      · obtain ⟨s, ⟨hch, -, -⟩, rfl, -⟩ :=
          findPath_found_inv (initRegistry m) m.start_hub.name m.end_hub.name res fuel p
            (regNoBlocked_initRegistry m) heq
        exact ih _ _ sol' res' (commit_tableBound m hv id hch hb) h

/-! ### Claim C1 -/

/-- C1 counterexample: `mZeroCap` is a valid network whose interior hub `H`
has `max_drones = 0`, yet after `generate_solution` the reservation list at
`("H", 1)` has length 1 — the claimed bound `length ≤ max_drones` fails at
capacity 0, because `_is_available` accepts any slot that has no
reservation entry yet. -/
theorem c1_counterexample :
    validNetwork mZeroCap ∧
    mZeroCap.hubs = [⟨"H", 1, 0, "normal", none, 0⟩] ∧
    generateSolution mZeroCap 50 =
      some ([("D1", [("H", 1), ("E", 2)])],
            [(("E-H", 1), ["D1"]), (("H", 1), ["D1"]), (("E", 2), ["D1"])]) ∧
    entryLen [(("E-H", 1), ["D1"]), (("H", 1), ["D1"]), (("E", 2), ["D1"])] ("H", 1) = 1 ∧
    ¬ (entryLen [(("E-H", 1), ["D1"]), (("H", 1), ["D1"]), (("E", 2), ["D1"])] ("H", 1) ≤ 0) :=
  ⟨by decide, by decide, by decide, by decide, by decide⟩

/-- C1 (amended): after `generate_solution` returns, every non-endpoint hub
`h` has, at every turn, a reservation list of length at most
`max(h.max_drones, 1)`, and every connection's canonical edge label has, at
every turn, a reservation list of length at most
`max(max_link_capacity, 1)` — over every valid network and drone count. The
weakening from `max_drones` to `max(max_drones, 1)` is forced: an absent
reservation entry passes `_is_available` regardless of capacity, so a
zero-capacity hub or edge admits one drone (see the counterexample). -/
theorem c1_amended_capacity (m : MapModel) (hv : validNetwork m) (fuel : Nat)
    (sol : List (String × Path)) (res : Reservation)
    (h : generateSolution m fuel = some (sol, res)) :
    (∀ hub ∈ m.hubs, ∀ t : Nat, entryLen res (hub.name, t) ≤ max hub.max_drones 1) ∧
    (∀ c ∈ m.connections, ∀ t : Nat,
      entryLen res (linkStr c.zone_1 c.zone_2, t) ≤ max c.max_link_capacity 1) := by
  have h0 : tableBound m [] := by
    constructor
    · intro hub _ t
      simp [entryLen, dget?]
    · intro c _ t
      simp [entryLen, dget?]
  exact solveDrones_tableBound m hv fuel (droneIds m.nb_drones) [] [] sol res h0 h

/-- Witness for the amended C1 theorem on the zero-capacity network. -/
theorem c1_amended_capacity_witness :
    (∀ hub ∈ mZeroCap.hubs, ∀ t : Nat,
      entryLen [(("E-H", 1), ["D1"]), (("H", 1), ["D1"]), (("E", 2), ["D1"])] (hub.name, t) ≤
        max hub.max_drones 1) ∧
    (∀ c ∈ mZeroCap.connections, ∀ t : Nat,
      entryLen [(("E-H", 1), ["D1"]), (("H", 1), ["D1"]), (("E", 2), ["D1"])]
        (linkStr c.zone_1 c.zone_2, t) ≤ max c.max_link_capacity 1) :=
  c1_amended_capacity mZeroCap (by decide) 50 [("D1", [("H", 1), ("E", 2)])] _ (by decide)

/-! ### Claim C9: the search never mutates the reservation table -/

theorem dset_append_of_fresh {α β : Type} [DecidableEq α] :
    ∀ (d : List (α × β)) (k : α) (v : β), dget? d k = none → dset d k v = d ++ [(k, v)] := by
  intro d
  induction d with
  | nil => intro k v _; rfl
  | cons kv rest ih =>
    intro k v h
    unfold dget? at h
    by_cases hk : kv.1 = k
    · rw [if_pos hk] at h
      cases h
    · rw [if_neg hk] at h
      show (if kv.1 = k then _ else _) = _
      rw [if_neg hk, ih k v h]
      rfl

theorem findPathLoop_res_eq (reg : Registry) (sh eh : String) (res : Reservation) :
    ∀ (fuel : Nat) (heap : List SState) (visited : List (String × Nat)),
    (findPathLoop reg sh eh res fuel heap visited).2 = res := by
  intro fuel
  induction fuel with
  | zero => intro heap visited; rfl
  | succ n ih =>
    intro heap visited
    cases heap with
    | nil => rfl
    | cons move rest =>
      simp only [findPathLoop]
      split
      · exact ih _ _
      · split
        · rfl
        · exact ih _ _

theorem solveDrones_res_commits (reg : Registry) (sh eh : String) (fuel : Nat) :
    ∀ (ids : List String) (res : Reservation) (sol sol' : List (String × Path))
      (res' : Reservation),
    ids.Nodup → (∀ id ∈ ids, dget? sol id = none) →
    solveDrones reg sh eh fuel ids res sol = some (sol', res') →
    ∃ newEntries : List (String × Path), sol' = sol ++ newEntries ∧
      res' = newEntries.foldl (fun r e => commitPath r e.1 e.2) res := by
  intro ids
  induction ids with
  | nil =>
    intro res sol sol' res' _ _ h
    simp only [solveDrones] at h
    injection h with h
    rw [Prod.mk.injEq] at h
    obtain ⟨h1, h2⟩ := h
    exact ⟨[], by rw [← h1]; simp, h2.symm⟩
  | cons id ids ih =>
    intro res sol sol' res' hnd hfresh h
    obtain ⟨hid, hnd2⟩ := List.nodup_cons.mp hnd
    simp only [solveDrones] at h
    split at h
    · exact Option.noConfusion h
    · exact ih res sol sol' res' hnd2 (fun i hi => hfresh i (List.mem_cons_of_mem _ hi)) h
    · next p heq =>
      split at h
      · exact ih res sol sol' res' hnd2 (fun i hi => hfresh i (List.mem_cons_of_mem _ hi)) h
      · have hfresh2 : ∀ i ∈ ids, dget? (dset sol id p) i = none := by
          intro i hi
          rw [dget?_dset_ne sol id i p (fun he => hid (he ▸ hi))]
          exact hfresh i (List.mem_cons_of_mem _ hi)
        obtain ⟨ne2, hsol, hres⟩ :=
          ih (commitPath res id p) (dset sol id p) sol' res' hnd2 hfresh2 h
        refine ⟨(id, p) :: ne2, ?_, ?_⟩
        · rw [hsol, dset_append_of_fresh sol id p (hfresh id (List.mem_cons_self _ _))]
          simp
        · rw [hres]
          rfl

/-- C9: the search reads the reservation table but never mutates it — every
`findPathLoop` run returns the table exactly as it received it — and the
table produced by `generate_solution` is exactly the fold of the commit
step over the paths stored in the returned solution map, in drone order:
the table is modified only by committing fully-found paths. -/
theorem c9_search_no_mutation :
    (∀ (reg : Registry) (sh eh : String) (res : Reservation) (fuel : Nat)
       (heap : List SState) (visited : List (String × Nat)),
      (findPathLoop reg sh eh res fuel heap visited).2 = res) ∧
    (∀ (m : MapModel) (fuel : Nat) (sol : List (String × Path)) (res : Reservation),
      (droneIds m.nb_drones).Nodup →
      generateSolution m fuel = some (sol, res) →
      res = sol.foldl (fun r e => commitPath r e.1 e.2) []) := by
  refine ⟨fun reg sh eh res fuel heap visited => findPathLoop_res_eq reg sh eh res fuel heap visited, ?_⟩
  intro m fuel sol res hnd h
  obtain ⟨ne, hsol, hres⟩ :=
    solveDrones_res_commits (initRegistry m) m.start_hub.name m.end_hub.name fuel
      (droneIds m.nb_drones) [] [] sol res hnd (by intro i _; rfl) h
  rw [hres, hsol]
  simp

/-- Witness for C9 on the zero-capacity network and a concrete table. -/
theorem c9_search_no_mutation_witness :
    (findPathLoop (initRegistry mZeroCap) "S" "E" [(("H", 1), ["D1"])] 5
        [⟨0, 0, "S", []⟩] []).2 = [(("H", 1), ["D1"])] ∧
    [(("E-H", 1), ["D1"]), (("H", 1), ["D1"]), (("E", 2), ["D1"])] =
      [("D1", [("H", 1), ("E", 2)])].foldl (fun r e => commitPath r e.1 e.2) [] :=
  ⟨c9_search_no_mutation.1 (initRegistry mZeroCap) "S" "E" [(("H", 1), ["D1"])] 5
      [⟨0, 0, "S", []⟩] [],
   c9_search_no_mutation.2 mZeroCap 50 [("D1", [("H", 1), ("E", 2)])]
      [(("E-H", 1), ["D1"]), (("H", 1), ["D1"]), (("E", 2), ["D1"])] (by decide) (by decide)⟩

/-! ### Claim C4: timeline round-trip lemmas -/

theorem dget?_append {α β : Type} [DecidableEq α] (l1 l2 : List (α × β)) (k : α) :
    dget? (l1 ++ l2) k =
      match dget? l1 k with
      | some v => some v
      | none => dget? l2 k := by
  induction l1 with
  | nil => simp [dget?]
  | cons kv rest ih =>
    by_cases h : kv.1 = k
    · simp [dget?, h]
    · simp [dget?, h, ih]

theorem dget?_range_map {β : Type} (v : β) :
    ∀ (n t : Nat), dget? ((List.range n).map (fun i => (i, v))) t =
      if t < n then some v else none := by
  intro n
  induction n with
  | zero => intro t; simp [List.range_zero, dget?]
  | succ n ih =>
    intro t
    rw [List.range_succ, List.map_append, dget?_append]
    rw [ih t]
    by_cases h : t < n
    · simp [h, Nat.lt_succ_of_lt h]
    · by_cases h2 : t = n
      · simp [h, h2, dget?, Nat.lt_succ_self]
      · have h3 : ¬ t < n + 1 := by omega
        have h4 : ¬ n = t := fun he => h2 he.symm
        simp [h, h3, dget?, h4]

theorem dget?_tlInit (maxT t : Nat) :
    dget? (tlInit maxT) t = if t ≤ maxT then some [] else none := by
  unfold tlInit
  rw [dget?_range_map]
  by_cases h : t ≤ maxT
  · have : t < maxT + 1 := by omega
    simp [h, this]
  · have : ¬ t < maxT + 1 := by omega
    simp [h, this]

theorem entryList_tlInit (maxT t : Nat) (k : String) :
    entryList (tlInit maxT) t k = [] := by
  unfold entryList
  rw [dget?_tlInit]
  by_cases h : t ≤ maxT <;> simp [h, dget?]

/-- Effect of one `tlAdd` on the occupant list at any cell: when the target
turn exists in the timeline, the id is appended at exactly the target cell;
every other cell (and everything when the turn is missing) is unchanged. -/
theorem entryList_tlAdd (tl : Timeline) (t0 : Nat) (k0 id : String) (t : Nat) (k : String) :
    entryList (tlAdd tl t0 k0 id) t k =
      if t = t0 ∧ k = k0 ∧ (dget? tl t0).isSome then entryList tl t k ++ [id]
      else entryList tl t k := by
  unfold tlAdd
  cases hT : dget? tl t0 with
  | none => simp [hT]
  | some inner =>
    dsimp only
    cases hI : dget? inner k0 with
    | none =>
      dsimp only
      by_cases ht : t = t0
      · subst ht
        by_cases hk : k = k0
        · subst hk
          simp [entryList, dget?_dset_self, hT, hI]
        · simp [entryList, dget?_dset_self, hk,
            dget?_dset_ne inner k0 k _ (fun he => hk he.symm), hT]
      · simp [entryList, dget?_dset_ne tl t0 t _ (fun he => ht he.symm), ht]
    | some l =>
      dsimp only
      by_cases ht : t = t0
      · subst ht
        by_cases hk : k = k0
        · subst hk
          simp [entryList, dget?_dset_self, hT, hI]
        · simp [entryList, dget?_dset_self, hk,
            dget?_dset_ne inner k0 k _ (fun he => hk he.symm), hT]
      · simp [entryList, dget?_dset_ne tl t0 t _ (fun he => ht he.symm), ht]

/-- `tlAdd` never creates or removes turns of the timeline. -/
theorem tlAdd_outer (tl : Timeline) (t0 : Nat) (k0 id : String) (u : Nat) :
    (dget? (tlAdd tl t0 k0 id) u).isSome = (dget? tl u).isSome := by
  unfold tlAdd
  cases hT : dget? tl t0 with
  | none => rfl
  | some inner =>
    dsimp only
    cases hI : dget? inner k0 with
    | none =>
      dsimp only
      by_cases hu : u = t0
      · subst hu; simp [dget?_dset_self, hT]
      · simp [dget?_dset_ne tl t0 u _ (fun he => hu he.symm)]
    | some l =>
      dsimp only
      by_cases hu : u = t0
      · subst hu; simp [dget?_dset_self, hT]
      · simp [dget?_dset_ne tl t0 u _ (fun he => hu he.symm)]

/-- Membership version of `entryList_tlAdd`, for an arbitrary observed id. -/
theorem mem_entryList_tlAdd (id0 : String) (tl : Timeline) (t0 : Nat) (k0 id : String)
    (t : Nat) (k : String) :
    (id0 ∈ entryList (tlAdd tl t0 k0 id) t k) ↔
      id0 ∈ entryList tl t k ∨
        (id0 = id ∧ t = t0 ∧ k = k0 ∧ (dget? tl t0).isSome) := by
  rw [entryList_tlAdd]
  split
  next h => simp [List.mem_append, h.1, h.2.1, h.2.2]
  next h =>
    constructor
    · exact Or.inl
    · rintro (h0 | ⟨_, h1, h2, h3⟩)
      · exact h0
      · exact absurd ⟨h1, h2, h3⟩ h

theorem mem_entryList_foldl_tlAdd (id0 id link : String) (t1 : Nat) :
    ∀ (js : List Nat) (tl : Timeline) (t : Nat) (k : String),
      (∀ j ∈ js, (dget? tl (t1 + j)).isSome) →
      ((id0 ∈ entryList (js.foldl (fun tl j => tlAdd tl (t1 + j) link id) tl) t k) ↔
        id0 ∈ entryList tl t k ∨ (id0 = id ∧ k = link ∧ ∃ j ∈ js, t = t1 + j)) := by
  intro js
  induction js with
  | nil => intro tl t k _; simp
  | cons j js ih =>
    intro tl t k hT
    rw [List.foldl_cons]
    have hT' : ∀ j' ∈ js, (dget? (tlAdd tl (t1 + j) link id) (t1 + j')).isSome := by
      intro j' hj'
      rw [tlAdd_outer]
      exact hT j' (List.mem_cons_of_mem _ hj')
    rw [ih _ t k hT', mem_entryList_tlAdd]
    have hj : (dget? tl (t1 + j)).isSome := hT j (List.mem_cons_self _ _)
    constructor
    · rintro ((h | ⟨he, ht', hk, _⟩) | ⟨he, hk, j', hj', ht'⟩)
      · exact Or.inl h
      · exact Or.inr ⟨he, hk, j, List.mem_cons_self _ _, ht'⟩
      · exact Or.inr ⟨he, hk, j', List.mem_cons_of_mem _ hj', ht'⟩
    · rintro (h | ⟨he, hk, j', hj', ht'⟩)
      · exact Or.inl (Or.inl h)
      · rcases List.mem_cons.mp hj' with rfl | hj2
        · exact Or.inl (Or.inr ⟨he, ht', hk, hj⟩)
        · exact Or.inr ⟨he, hk, j', hj2, ht'⟩

/-- Effect of the edge fill loop on any cell: the id is added at the link
label for every strictly intermediate turn of the traversal window. -/
theorem mem_entryList_addFills (id0 : String) (tl : Timeline) (id link : String)
    (t1 diff : Nat) (t : Nat) (k : String)
    (hT : ∀ u, t1 < u → u < t1 + diff → (dget? tl u).isSome) :
    (id0 ∈ entryList (addFills tl id link t1 diff) t k) ↔
      id0 ∈ entryList tl t k ∨ (id0 = id ∧ k = link ∧ t1 < t ∧ t < t1 + diff) := by
  unfold addFills
  rw [mem_entryList_foldl_tlAdd]
  · constructor
    · rintro (h | ⟨he, hk, j, hj, ht'⟩)
      · exact Or.inl h
      · have hj2 := List.mem_range'_1.mp hj
        exact Or.inr ⟨he, hk, by omega, by omega⟩
    · rintro (h | ⟨he, hk, h1, h2⟩)
      · exact Or.inl h
      · exact Or.inr ⟨he, hk, t - t1, List.mem_range'_1.mpr (by omega), by omega⟩
  · intro j hj
    have hj2 := List.mem_range'_1.mp hj
    exact hT (t1 + j) (by omega) (by omega)

theorem addFills_outer (tl : Timeline) (id link : String) (t1 diff u : Nat) :
    (dget? (addFills tl id link t1 diff) u).isSome = (dget? tl u).isSome := by
  unfold addFills
  generalize List.range' 1 (diff - 1) = js
  induction js generalizing tl with
  | nil => rfl
  | cons j js ih => rw [List.foldl_cons, ih, tlAdd_outer]

theorem addStamps_outer (id : String) :
    ∀ (p : Path) (tl : Timeline) (u : Nat),
      (dget? (addStamps tl id p) u).isSome = (dget? tl u).isSome := by
  intro p
  induction p with
  | nil => intro tl u; rfl
  | cons x rest ih =>
    intro tl u
    cases rest with
    | nil => exact tlAdd_outer tl x.2 x.1 id u
    | cons x2 rest2 =>
      show (dget? (addStamps
          (if x.1 = x2.1 then tlAdd tl x.2 x.1 id
           else if x2.2 - x.2 > 1 then
             addFills (tlAdd tl x.2 x.1 id) id (linkStr x.1 x2.1) x.2 (x2.2 - x.2)
           else tlAdd tl x.2 x.1 id) id (x2 :: rest2)) u).isSome = (dget? tl u).isSome
      rw [ih]
      split
      · exact tlAdd_outer tl x.2 x.1 id u
      · split
        · rw [addFills_outer, tlAdd_outer]
        · exact tlAdd_outer tl x.2 x.1 id u

/-- A well-shaped path never covers a turn earlier than its first stamp. -/
theorem coverAt_some_ge :
    ∀ (rest : Path) (x : String × Nat) (t : Nat) (k : String),
      stepsWF (x :: rest) → coverAt (x :: rest) t = some k → x.2 ≤ t := by
  intro rest
  induction rest with
  | nil =>
    intro x t k _ h
    simp only [coverAt] at h
    split at h
    next ht => omega
    next => exact absurd h (by simp)
  | cons x2 rest2 ih =>
    intro x t k hwf h
    simp only [coverAt] at h
    split at h
    next ht => omega
    next ht =>
      split at h
      next hf => exact Nat.le_of_lt hf.2.1
      next hf =>
        have h2 := ih x2 t k hwf.2 h
        rcases hwf.1 with ⟨_, he⟩ | ⟨_, hlt⟩
        · omega
        · omega

theorem addStamps_one (tl : Timeline) (id : String) (x : String × Nat) :
    addStamps tl id [x] = tlAdd tl x.2 x.1 id := rfl

theorem addStamps_cons2 (tl : Timeline) (id : String) (x x2 : String × Nat) (rest : Path) :
    addStamps tl id (x :: x2 :: rest) =
      addStamps
        (if x.1 = x2.1 then tlAdd tl x.2 x.1 id
         else if x2.2 - x.2 > 1 then
           addFills (tlAdd tl x.2 x.1 id) id (linkStr x.1 x2.1) x.2 (x2.2 - x.2)
         else tlAdd tl x.2 x.1 id) id (x2 :: rest) := rfl

theorem coverAt_cons2 (x x2 : String × Nat) (rest : Path) (t : Nat) :
    coverAt (x :: x2 :: rest) t =
      if t = x.2 then some x.1
      else if x.1 ≠ x2.1 ∧ x.2 < t ∧ t < x2.2 then some (linkStr x.1 x2.1)
      else coverAt (x2 :: rest) t := rfl

/-- Effect of one drone's `addStamps` pass on any timeline cell, provided all
stamp turns exist in the timeline: the drone is added exactly at the cells
described by `coverAt`, and no other cell changes. -/
theorem mem_entryList_addStamps (id0 id : String) (maxT : Nat) :
    ∀ (p : Path) (tl : Timeline) (t : Nat) (k : String),
      stepsWF p →
      (∀ x ∈ p, x.2 ≤ maxT) →
      (∀ u, u ≤ maxT → (dget? tl u).isSome) →
      ((id0 ∈ entryList (addStamps tl id p) t k) ↔
        id0 ∈ entryList tl t k ∨ (id0 = id ∧ coverAt p t = some k)) := by
  intro p
  induction p with
  | nil => intro tl t k _ _ _; simp [addStamps, coverAt]
  | cons x rest ih =>
    intro tl t k hwf hle hT
    have hx : (dget? tl x.2).isSome := hT x.2 (hle x (List.mem_cons_self _ _))
    cases rest with
    | nil =>
      rw [addStamps_one, mem_entryList_tlAdd]
      simp only [coverAt]
      constructor
      · rintro (h | ⟨he, ht, hk, _⟩)
        · exact Or.inl h
        · exact Or.inr ⟨he, by rw [if_pos ht, hk]⟩
      · rintro (h | ⟨he, hc⟩)
        · exact Or.inl h
        · split at hc
          next ht => exact Or.inr ⟨he, ht, (Option.some.inj hc).symm, hx⟩
          next => exact absurd hc (by simp)
    | cons x2 rest2 =>
      have hwf2 : stepsWF (x2 :: rest2) := hwf.2
      have hle2 : ∀ x' ∈ x2 :: rest2, x'.2 ≤ maxT :=
        fun x' h => hle x' (List.mem_cons_of_mem _ h)
      have hx22 : x2.2 ≤ maxT := hle x2 (List.mem_cons_of_mem _ (List.mem_cons_self _ _))
      have hlt : x.2 < x2.2 := by
        rcases hwf.1 with ⟨_, he⟩ | ⟨_, hl⟩ <;> omega
      rw [addStamps_cons2]
      by_cases hw : x.1 = x2.1
      · rw [if_pos hw]
        rw [ih _ t k hwf2 hle2 (fun u hu => by rw [tlAdd_outer]; exact hT u hu)]
        rw [mem_entryList_tlAdd, coverAt_cons2]
        constructor
        · rintro ((h | ⟨he, ht, hk, _⟩) | ⟨he, hc⟩)
          · exact Or.inl h
          · exact Or.inr ⟨he, by rw [if_pos ht, hk]⟩
          · have hge := coverAt_some_ge _ _ _ _ hwf2 hc
            refine Or.inr ⟨he, ?_⟩
            rw [if_neg (by omega), if_neg (fun hcond => hcond.1 hw)]
            exact hc
        · rintro (h | ⟨he, hc⟩)
          · exact Or.inl (Or.inl h)
          · split at hc
            next ht => exact Or.inl (Or.inr ⟨he, ht, (Option.some.inj hc).symm, hx⟩)
            next ht =>
              split at hc
              next hcond => exact absurd hw hcond.1
              next => exact Or.inr ⟨he, hc⟩
      · rw [if_neg hw]
        by_cases hbig : x2.2 - x.2 > 1
        · rw [if_pos hbig]
          rw [ih _ t k hwf2 hle2
            (fun u hu => by rw [addFills_outer, tlAdd_outer]; exact hT u hu)]
          rw [mem_entryList_addFills _ _ _ _ _ _ _ _
            (fun u h1 h2 => by rw [tlAdd_outer]; exact hT u (by omega))]
          rw [mem_entryList_tlAdd, coverAt_cons2]
          constructor
          · rintro (((h | ⟨he, ht, hk, _⟩) | ⟨he, hk, h1, h2⟩) | ⟨he, hc⟩)
            · exact Or.inl h
            · exact Or.inr ⟨he, by rw [if_pos ht, hk]⟩
            · refine Or.inr ⟨he, ?_⟩
              rw [if_neg (by omega), if_pos ⟨hw, h1, by omega⟩, hk]
            · have hge := coverAt_some_ge _ _ _ _ hwf2 hc
              refine Or.inr ⟨he, ?_⟩
              rw [if_neg (by omega),
                if_neg (fun hcond => by rcases hcond with ⟨-, h1, h2⟩; omega)]
              exact hc
          · rintro (h | ⟨he, hc⟩)
            · exact Or.inl (Or.inl (Or.inl h))
            · split at hc
              next ht =>
                exact Or.inl (Or.inl (Or.inr ⟨he, ht, (Option.some.inj hc).symm, hx⟩))
              next ht =>
                split at hc
                next hcond =>
                  exact Or.inl (Or.inr
                    ⟨he, (Option.some.inj hc).symm, hcond.2.1, by omega⟩)
                next => exact Or.inr ⟨he, hc⟩
        · rw [if_neg hbig]
          have hstep : x2.2 = x.2 + 1 := by omega
          rw [ih _ t k hwf2 hle2 (fun u hu => by rw [tlAdd_outer]; exact hT u hu)]
          rw [mem_entryList_tlAdd, coverAt_cons2]
          constructor
          · rintro ((h | ⟨he, ht, hk, _⟩) | ⟨he, hc⟩)
            · exact Or.inl h
            · exact Or.inr ⟨he, by rw [if_pos ht, hk]⟩
            · have hge := coverAt_some_ge _ _ _ _ hwf2 hc
              refine Or.inr ⟨he, ?_⟩
              rw [if_neg (by omega),
                if_neg (fun hcond => by rcases hcond with ⟨-, h1, h2⟩; omega)]
              exact hc
          · rintro (h | ⟨he, hc⟩)
            · exact Or.inl (Or.inl h)
            · split at hc
              next ht => exact Or.inl (Or.inr ⟨he, ht, (Option.some.inj hc).symm, hx⟩)
              next ht =>
                split at hc
                next hcond => rcases hcond with ⟨-, h1, h2⟩; omega
                next => exact Or.inr ⟨he, hc⟩

/-- Coverage: a well-shaped path covers every turn from its first to its
last stamp. -/
theorem coverAt_isSome :
    ∀ (rest : Path) (x : String × Nat) (t : Nat),
      stepsWF (x :: rest) → x.2 ≤ t → t ≤ lastTurn (x :: rest) →
      (coverAt (x :: rest) t).isSome := by
  intro rest
  induction rest with
  | nil =>
    intro x t _ h1 h2
    have h3 : lastTurn [x] = x.2 := rfl
    rw [h3] at h2
    have ht : t = x.2 := by omega
    simp only [coverAt]
    rw [if_pos ht]
    rfl
  | cons x2 rest2 ih =>
    intro x t hwf h1 h2
    have hlast : lastTurn (x :: x2 :: rest2) = lastTurn (x2 :: rest2) := by
      unfold lastTurn
      simp [List.getLastD_cons]
    rw [coverAt_cons2]
    by_cases ht : t = x.2
    · rw [if_pos ht]; rfl
    · by_cases hcond : x.1 ≠ x2.1 ∧ x.2 < t ∧ t < x2.2
      · rw [if_neg ht, if_pos hcond]; rfl
      · rw [if_neg ht, if_neg hcond]
        have hge : x2.2 ≤ t := by
          by_cases hw : x.1 = x2.1
          · rcases hwf.1 with ⟨_, he⟩ | ⟨hne, _⟩
            · omega
            · exact absurd hw hne
          · have h3 : ¬(x.2 < t ∧ t < x2.2) := fun hh => hcond ⟨hw, hh.1, hh.2⟩
            omega
        exact ih x2 t hwf.2 hge (by rw [← hlast]; exact h2)

theorem foldl_addStamps_outer :
    ∀ (sols : List (String × Path)) (tl : Timeline) (u : Nat),
      (dget? (sols.foldl (fun tl e => addStamps tl e.1 e.2) tl) u).isSome
        = (dget? tl u).isSome := by
  intro sols
  induction sols with
  | nil => intro tl u; rfl
  | cons e es ih => intro tl u; rw [List.foldl_cons, ih, addStamps_outer]

/-- Drones absent from the solution map are never touched by the per-drone
loop of `generate_timeline`. -/
theorem mem_entryList_foldl_foreign (id0 : String) (maxT : Nat) :
    ∀ (sols : List (String × Path)) (tl : Timeline) (t : Nat) (k : String),
      (∀ e ∈ sols, stepsWF e.2 ∧ ∀ x ∈ e.2, x.2 ≤ maxT) →
      (∀ u, u ≤ maxT → (dget? tl u).isSome) →
      id0 ∉ sols.map Prod.fst →
      ((id0 ∈ entryList (sols.foldl (fun tl e => addStamps tl e.1 e.2) tl) t k) ↔
        id0 ∈ entryList tl t k) := by
  intro sols
  induction sols with
  | nil => intro tl t k _ _ _; rfl
  | cons e es ih =>
    intro tl t k hwf hT hnm
    rw [List.foldl_cons]
    have hne : id0 ≠ e.1 := by
      intro he
      exact hnm (by rw [List.map_cons, he]; exact List.mem_cons_self _ _)
    have hnm2 : id0 ∉ es.map Prod.fst :=
      fun h => hnm (by rw [List.map_cons]; exact List.mem_cons_of_mem _ h)
    rw [ih _ t k (fun e' h => hwf e' (List.mem_cons_of_mem _ h))
      (fun u hu => by rw [addStamps_outer]; exact hT u hu) hnm2]
    rw [mem_entryList_addStamps id0 e.1 maxT e.2 tl t k
      (hwf e (List.mem_cons_self _ _)).1 (hwf e (List.mem_cons_self _ _)).2 hT]
    constructor
    · rintro (h | ⟨he, _⟩)
      · exact h
      · exact absurd he hne
    · exact Or.inl

/-- Per-drone characterization of the timeline built by the stamp loop of
`generate_timeline`: a drone of the solution map appears at exactly the
cells described by `coverAt` over its own path. -/
theorem mem_entryList_foldl_entries (maxT : Nat) :
    ∀ (sols : List (String × Path)) (tl : Timeline) (t : Nat) (k id : String) (p : Path),
      (sols.map Prod.fst).Nodup →
      (∀ e ∈ sols, stepsWF e.2 ∧ ∀ x ∈ e.2, x.2 ≤ maxT) →
      (∀ u, u ≤ maxT → (dget? tl u).isSome) →
      (id, p) ∈ sols →
      id ∉ entryList tl t k →
      ((id ∈ entryList (sols.foldl (fun tl e => addStamps tl e.1 e.2) tl) t k) ↔
        coverAt p t = some k) := by
  intro sols
  induction sols with
  | nil => intro tl t k id p _ _ _ hm _; exact absurd hm (List.not_mem_nil _)
  | cons e es ih =>
    intro tl t k id p hnd hwf hT hm hni
    rw [List.map_cons] at hnd
    have hnotin : e.1 ∉ es.map Prod.fst := (List.nodup_cons.mp hnd).1
    have hnd2 : (es.map Prod.fst).Nodup := (List.nodup_cons.mp hnd).2
    have hwfh := hwf e (List.mem_cons_self _ _)
    have hwf2 : ∀ e' ∈ es, stepsWF e'.2 ∧ ∀ x ∈ e'.2, x.2 ≤ maxT :=
      fun e' h => hwf e' (List.mem_cons_of_mem _ h)
    have hT2 : ∀ u, u ≤ maxT → (dget? (addStamps tl e.1 e.2) u).isSome :=
      fun u hu => by rw [addStamps_outer]; exact hT u hu
    rw [List.foldl_cons]
    by_cases hid : id = e.1
    · have hep : e = (id, p) := by
        rcases List.mem_cons.mp hm with h | h
        · exact h.symm
        · exact absurd (hid ▸ List.mem_map_of_mem Prod.fst h) hnotin
      rw [mem_entryList_foldl_foreign id maxT es (addStamps tl e.1 e.2) t k hwf2 hT2
        (by rw [← hid] at hnotin; exact hnotin)]
      rw [mem_entryList_addStamps id e.1 maxT e.2 tl t k hwfh.1 hwfh.2 hT]
      rw [hep]
      constructor
      · rintro (h | ⟨_, hc⟩)
        · exact absurd h hni
        · exact hc
      · exact fun hc => Or.inr ⟨rfl, hc⟩
    · have hm2 : (id, p) ∈ es := by
        rcases List.mem_cons.mp hm with h | h
        · exact absurd (congrArg Prod.fst h) hid
        · exact h
      have hni2 : id ∉ entryList (addStamps tl e.1 e.2) t k := by
        rw [mem_entryList_addStamps id e.1 maxT e.2 tl t k hwfh.1 hwfh.2 hT]
        rintro (h | ⟨he, _⟩)
        · exact hni h
        · exact hid he
      exact ih (addStamps tl e.1 e.2) t k id p hnd2 hwf2 hT2 hm2 hni2

/-- Effect of the initial-condition override on any timeline cell. -/
theorem entryList_setStart (tl : Timeline) (start : String) (ids : List String)
    (t : Nat) (k : String) (h0 : (dget? tl 0).isSome) :
    entryList (setStart tl start ids) t k =
      if t = 0 ∧ k = start then ids else entryList tl t k := by
  unfold setStart
  cases hT : dget? tl 0 with
  | none => rw [hT] at h0; exact absurd h0 (by simp)
  | some inner =>
    dsimp only
    by_cases ht : t = 0
    · subst ht
      by_cases hk : k = start
      · subst hk
        simp [entryList, dget?_dset_self]
      · simp [entryList, dget?_dset_self, hk,
          dget?_dset_ne inner start k _ (fun he => hk he.symm), hT]
    · simp [entryList, dget?_dset_ne tl 0 t _ (fun he => ht he.symm), ht]

theorem le_foldl_max :
    ∀ (ts : List Nat) (a b : Nat), (b ≤ a ∨ b ∈ ts) → b ≤ ts.foldl max a := by
  intro ts
  induction ts with
  | nil =>
    intro a b h
    rcases h with h | h
    · exact h
    · exact absurd h (List.not_mem_nil _)
  | cons t ts ih =>
    intro a b h
    rw [List.foldl_cons]
    rcases h with h | h
    · exact ih _ _ (Or.inl (le_trans h (le_max_left a t)))
    · rcases List.mem_cons.mp h with rfl | h2
      · exact ih _ _ (Or.inl (le_max_right a b))
      · exact ih _ _ (Or.inr h2)

theorem mem_turns_collect :
    ∀ (sols : List (String × Path)) (e : String × Path) (x : String × Nat),
      e ∈ sols → x ∈ e.2 →
      x.2 ∈ sols.foldr (fun e acc => e.2.map Prod.snd ++ acc) [] := by
  intro sols
  induction sols with
  | nil => intro e x hm _; exact absurd hm (List.not_mem_nil _)
  | cons e0 es ih =>
    intro e x hm hx
    rw [List.foldr_cons]
    rcases List.mem_cons.mp hm with rfl | h2
    · exact List.mem_append_left _ (List.mem_map_of_mem Prod.snd hx)
    · exact List.mem_append_right _ (ih e x h2 hx)

/-- Every stamp turn of the solution map is bounded by the computed
`max_turn`. -/
theorem maxTurnAll_bound (sols : List (String × Path)) (maxT : Nat)
    (h : maxTurnAll sols = some maxT) :
    ∀ e ∈ sols, ∀ x ∈ e.2, x.2 ≤ maxT := by
  intro e he x hx
  have hmem := mem_turns_collect sols e x he hx
  unfold maxTurnAll at h
  split at h
  next heq => exact absurd h (by simp)
  next t0 ts heq =>
    have hm2 := Option.some.inj h
    rw [heq] at hmem
    rcases List.mem_cons.mp hmem with heq2 | h2
    · rw [heq2]
      exact hm2 ▸ le_foldl_max ts t0 t0 (Or.inl le_rfl)
    · exact hm2 ▸ le_foldl_max ts t0 x.2 (Or.inr h2)

/-- C4, counterexample: on the restricted-hub network the solver's only
drone has path `[("R",2),("E",3)]` (the first move costs 2 turns), yet the
timeline of `generate_timeline` lists the drone under **no** key at turn 1,
although `1 ∈ [0, T_max]`: the implicit start→first-stamp move is not a
pair of consecutive path stamps, so its in-flight turns get no edge fill. -/
theorem c4_counterexample :
    (generateSolution mRestrict 50).map Prod.fst = some [("D1", [("R", 2), ("E", 3)])] ∧
    generateTimeline mRestrict [("D1", [("R", 2), ("E", 3)])] =
      some [(0, [("S", ["D1"])]), (1, []), (2, [("R", ["D1"])]), (3, [("E", ["D1"])])] ∧
    (1 : Nat) ≤ lastTurn [(("R" : String), 2), (("E" : String), 3)] ∧
    ∀ k : String,
      ¬ idAt [(0, [("S", ["D1"])]), (1, []), (2, [("R", ["D1"])]), (3, [("E", ["D1"])])]
        1 k "D1" := by
  refine ⟨by decide, by decide, by decide, ?_⟩
  intro k
  simp [idAt, entryList, dget?]

/-- C4, amended: for every solution map with distinct drone ids whose paths
are well-formed (non-empty, first stamp at turn ≥ 1, wait steps advancing
the turn by one and move steps strictly increasing it), the timeline of
`generate_timeline` lists each drone (a) at turn 0 under exactly the start
hub key, and (b) under exactly one key — the stamp hub or the canonical
edge label, as computed by `coverAt` — at every turn from its first stamp
turn through its last; (c) at the in-flight turns of the implicit first
move (turns strictly between 0 and the first stamp turn) the drone appears
under no key at all, which is where the original round-trip claim fails. -/
theorem c4_amended_timeline (m : MapModel) (solutions : List (String × Path))
    (tl : Timeline)
    (hnd : (solutions.map Prod.fst).Nodup)
    (hwf : ∀ e ∈ solutions, wfPath e.2)
    (h : generateTimeline m solutions = some tl) :
    ∀ e ∈ solutions,
      (idAt tl 0 m.start_hub.name e.1 ∧
        ∀ k, idAt tl 0 k e.1 → k = m.start_hub.name) ∧
      (∀ t, firstTurn e.2 ≤ t → t ≤ lastTurn e.2 →
        ∃ k, coverAt e.2 t = some k ∧ idAt tl t k e.1 ∧
          ∀ k', idAt tl t k' e.1 → k' = k) ∧
      (∀ t, 0 < t → t < firstTurn e.2 → ∀ k, ¬ idAt tl t k e.1) := by
  unfold generateTimeline at h
  split at h
  next => exact absurd h (by simp)
  next maxT heq =>
    have htl := (Option.some.inj h).symm
    have hb : ∀ u, u ≤ maxT → (dget? (tlInit maxT) u).isSome := by
      intro u hu
      rw [dget?_tlInit, if_pos hu]
      rfl
    have hwf' : ∀ e ∈ solutions, stepsWF e.2 ∧ ∀ x ∈ e.2, x.2 ≤ maxT := by
      intro e he
      refine ⟨?_, maxTurnAll_bound solutions maxT heq e he⟩
      have := hwf e he
      cases hp : e.2 with
      | nil => rw [hp] at this; exact absurd this (fun hf => hf)
      | cons x rest => rw [hp] at this; exact this.2
    have hb0 : (dget? (solutions.foldl (fun tl e => addStamps tl e.1 e.2)
        (tlInit maxT)) 0).isSome := by
      rw [foldl_addStamps_outer]
      exact hb 0 (Nat.zero_le _)
    rintro ⟨id, p⟩ he
    have hwfp : wfPath p := hwf (id, p) he
    have hchar : ∀ t k, (id ∈ entryList (solutions.foldl
        (fun tl e => addStamps tl e.1 e.2) (tlInit maxT)) t k) ↔
        coverAt p t = some k := by
      intro t k
      exact mem_entryList_foldl_entries maxT solutions (tlInit maxT) t k id p
        hnd hwf' hb he (by rw [entryList_tlInit]; exact List.not_mem_nil _)
    obtain ⟨x, rest, hp⟩ : ∃ x rest, p = x :: rest := by
      cases hp : p with
      | nil => rw [hp] at hwfp; exact absurd hwfp (fun hf => hf)
      | cons x rest => exact ⟨x, rest, rfl⟩
    have hfirst : firstTurn p = x.2 := by rw [hp]; rfl
    have h1le : 1 ≤ x.2 := by
      rw [hp] at hwfp; exact hwfp.1
    have hset : ∀ t k, entryList tl t k =
        if t = 0 ∧ k = m.start_hub.name then solutions.map Prod.fst
        else entryList (solutions.foldl (fun tl e => addStamps tl e.1 e.2)
          (tlInit maxT)) t k := by
      intro t k
      rw [htl]
      exact entryList_setStart _ _ _ t k hb0
    refine ⟨⟨?_, ?_⟩, ?_, ?_⟩
    · show id ∈ entryList tl 0 m.start_hub.name
      rw [hset, if_pos ⟨rfl, rfl⟩]
      exact List.mem_map_of_mem Prod.fst he
    · intro k hk
      rw [idAt, hset] at hk
      by_cases hks : k = m.start_hub.name
      · exact hks
      · rw [if_neg (fun hc => hks hc.2)] at hk
        have hc := (hchar 0 k).mp hk
        rw [hp] at hc
        have := coverAt_some_ge rest x 0 k (by rw [hp] at hwfp; exact hwfp.2) hc
        omega
    · intro t ht1 ht2
      have hcov : (coverAt p t).isSome := by
        rw [hp]
        exact coverAt_isSome rest x t (by rw [hp] at hwfp; exact hwfp.2)
          (by rw [hfirst] at ht1; exact ht1) (by rw [hp] at ht2; exact ht2)
      obtain ⟨k, hk⟩ := Option.isSome_iff_exists.mp hcov
      have htpos : 0 < t := by rw [hfirst] at ht1; omega
      refine ⟨k, hk, ?_, ?_⟩
      · show id ∈ entryList tl t k
        rw [hset, if_neg (fun hc => by omega)]
        exact (hchar t k).mpr hk
      · intro k' hk'
        rw [idAt, hset, if_neg (fun hc => by omega)] at hk'
        have hc := (hchar t k').mp hk'
        rw [hk] at hc
        exact (Option.some.inj hc).symm
    · intro t ht0 htf k hk
      rw [idAt, hset, if_neg (fun hc => by omega)] at hk
      have hc := (hchar t k).mp hk
      rw [hp] at hc
      have := coverAt_some_ge rest x t k (by rw [hp] at hwfp; exact hwfp.2) hc
      rw [hfirst] at htf
      omega

/-- Witness for the amended C4 on the restricted-hub network. -/
theorem c4_amended_timeline_witness :
    ((([("D1", [("R", 2), ("E", 3)])] : List (String × Path)).map Prod.fst).Nodup ∧
     (∀ e ∈ ([("D1", [("R", 2), ("E", 3)])] : List (String × Path)), wfPath e.2) ∧
     generateTimeline mRestrict [("D1", [("R", 2), ("E", 3)])] =
       some [(0, [("S", ["D1"])]), (1, []), (2, [("R", ["D1"])]), (3, [("E", ["D1"])])]) ∧
    ((idAt [(0, [("S", ["D1"])]), (1, []), (2, [("R", ["D1"])]), (3, [("E", ["D1"])])]
        0 mRestrict.start_hub.name "D1" ∧
      ∀ k, idAt [(0, [("S", ["D1"])]), (1, []), (2, [("R", ["D1"])]), (3, [("E", ["D1"])])]
        0 k "D1" → k = mRestrict.start_hub.name) ∧
     (∀ t, firstTurn [(("R" : String), 2), (("E" : String), 3)] ≤ t →
        t ≤ lastTurn [(("R" : String), 2), (("E" : String), 3)] →
        ∃ k, coverAt [(("R" : String), 2), (("E" : String), 3)] t = some k ∧
          idAt [(0, [("S", ["D1"])]), (1, []), (2, [("R", ["D1"])]), (3, [("E", ["D1"])])]
            t k "D1" ∧
          ∀ k', idAt [(0, [("S", ["D1"])]), (1, []), (2, [("R", ["D1"])]), (3, [("E", ["D1"])])]
            t k' "D1" → k' = k) ∧
     (∀ t, 0 < t → t < firstTurn [(("R" : String), 2), (("E" : String), 3)] →
        ∀ k, ¬ idAt [(0, [("S", ["D1"])]), (1, []), (2, [("R", ["D1"])]), (3, [("E", ["D1"])])]
          t k "D1")) :=
  ⟨⟨by decide, by decide, by decide⟩,
   c4_amended_timeline mRestrict [("D1", [("R", 2), ("E", 3)])]
     [(0, [("S", ["D1"])]), (1, []), (2, [("R", ["D1"])]), (3, [("E", ["D1"])])]
     (by decide) (by decide) (by decide)
     ("D1", [("R", 2), ("E", 3)]) (by decide)⟩

/-- C6, code bug: on `mC6` the second drone waits at hub `A` between turns
1 and 2 (`coverAt` of its path is `"A"` at both turns, so its location has
not changed from its most recent location), yet `classic_render` emits the
token `"D2-A"` on the turn-2 line again: `latest_loc[id]` is initialized to
`[start_hub]` and never appended to, so `previous_loc` always compares the
key against the start hub instead of the drone's most recent location. The
claim that a waiting drone emits nothing is false of the code. -/
theorem c6_wait_token_reemitted :
    (generateSolution mC6 50).map Prod.fst =
      some [("D1", [("A", 1), ("E", 2)]), ("D2", [("A", 1), ("A", 2), ("E", 3)])] ∧
    generateTimeline mC6 [("D1", [("A", 1), ("E", 2)]), ("D2", [("A", 1), ("A", 2), ("E", 3)])] =
      some [(0, [("S", ["D1", "D2"])]), (1, [("A", ["D1", "D2"])]),
            (2, [("E", ["D1"]), ("A", ["D2"])]), (3, [("E", ["D2"])])] ∧
    classicRender mC6 [("D1", [("A", 1), ("E", 2)]), ("D2", [("A", 1), ("A", 2), ("E", 3)])]
      [(0, [("S", ["D1", "D2"])]), (1, [("A", ["D1", "D2"])]),
       (2, [("E", ["D1"]), ("A", ["D2"])]), (3, [("E", ["D2"])])] =
      some ["D1-A D2-A", "D1-E D2-A", "D2-E"] ∧
    coverAt [(("A" : String), 1), (("A" : String), 2), (("E" : String), 3)] 1 = some "A" ∧
    coverAt [(("A" : String), 1), (("A" : String), 2), (("E" : String), 3)] 2 = some "A" :=
  ⟨by decide, by decide, by decide, by decide, by decide⟩

/-! ### Claim C8: scanner gating lemmas -/

theorem ite_nil_iff {c : Prop} [Decidable c] (msg : String) :
    (if c then ([] : List String) else [msg]) = [] ↔ c := by
  by_cases h : c <;> simp [h]

theorem ite_none_iff {c : Prop} [Decidable c] (msg : String) :
    (if c then (none : Option String) else some msg) = none ↔ c := by
  by_cases h : c <;> simp [h]

/-- A successful `nb_drones` match implies the `startswith` check passes. -/
theorem matchNb_startsWith (s : String) (h : (matchNb s).isSome) :
    pyStartsWith s "nb_drones" = true := by
  unfold matchNb at h
  unfold pyStartsWith
  cases hp : litPrefix "nb_drones".data s.data with
  | none => rw [hp] at h; exact absurd h (by simp)
  | some r1 =>
    unfold litPrefix at hp
    cases hpre : "nb_drones".data.isPrefixOf s.data with
    | true => rfl
    | false => rw [hpre] at hp; exact absurd hp (by simp)

/-- A line passing the `startswith("nb_drones")` check can match neither
the hub nor the connection pattern: their leading literals disagree with
the first character `n`. -/
theorem startsWith_nb_others_none (s : String) (h : pyStartsWith s "nb_drones" = true) :
    matchHub s = none ∧ matchConn s = none := by
  unfold pyStartsWith at h
  obtain ⟨cs, hcs⟩ : ∃ cs, s.data = 'n' :: cs := by
    cases hd : s.data with
    | nil =>
      rw [hd] at h
      exact absurd h (by decide)
    | cons c cs =>
      rw [hd] at h
      have h3 : ('n' == c && List.isPrefixOf "b_drones".data cs) = true := h
      have h4 : 'n' = c := eq_of_beq ((Bool.and_eq_true _ _).mp h3).1
      exact ⟨cs, by rw [← h4]⟩
  constructor
  · unfold matchHub
    rw [hcs]
    rfl
  · unfold matchConn
    rw [hcs]
    rfl

/-- When the `startswith` check passes, matching any of the three patterns
means matching the `nb_drones` pattern itself. -/
theorem matchNb_of_matchRec (l : String) (hs : pyStartsWith l "nb_drones" = true)
    (hm : (matchRec l).isSome) : (matchNb l).isSome := by
  unfold matchRec at hm
  cases hn : matchNb l with
  | some r => simp
  | none =>
    rw [hn] at hm
    obtain ⟨hh, hc⟩ := startsWith_nb_others_none l hs
    rw [hh, hc] at hm
    exact absurd hm (by simp)

/-- Characterization of an empty error report for a non-empty line list. -/
theorem scanErrors_nil_iff (l0 : String) (rest : List String) :
    scanErrors (l0 :: rest) = [] ↔
      ((matchNb l0).isSome ∧
       (∀ l ∈ l0 :: rest, (matchRec l).isSome) ∧
       countKind ((l0 :: rest).filterMap matchRec) "nb_drones" = 1 ∧
       countKind ((l0 :: rest).filterMap matchRec) "start_hub" = 1 ∧
       countKind ((l0 :: rest).filterMap matchRec) "end_hub" = 1) := by
  unfold scanErrors
  simp only [List.append_eq_nil, ite_nil_iff, List.filterMap_eq_nil_iff, ite_none_iff,
    and_assoc]
  constructor
  · rintro ⟨h1, h2, h3, h4, h5⟩
    exact ⟨matchNb_of_matchRec l0 h1 (h2 l0 (List.mem_cons_self _ _)), h2, h3, h4, h5⟩
  · rintro ⟨h1, h2, h3, h4, h5⟩
    exact ⟨matchNb_startsWith l0 h1, h2, h3, h4, h5⟩

/-- C8: `scan_file_format` succeeds exactly when the comment/blank-filtered
line list is non-empty, its first line matches the `nb_drones` pattern
(the code checks `startswith("nb_drones")`, but together with the
every-line syntax check this forces a genuine `nb_drones` record), every
line matches one of the three record patterns, and the matched groups
contain exactly one `nb_drones`, one `start_hub` and one `end_hub`; in
every other case at least one error is accumulated and the function
returns `None`, emitting no partial result. -/
theorem c8_scan_gating (raw : List String) :
    (scanFileFormat raw).isSome ↔
      (scanLines raw ≠ [] ∧
       (∀ l0 rest, scanLines raw = l0 :: rest → (matchNb l0).isSome) ∧
       (∀ l ∈ scanLines raw, (matchRec l).isSome) ∧
       countKind ((scanLines raw).filterMap matchRec) "nb_drones" = 1 ∧
       countKind ((scanLines raw).filterMap matchRec) "start_hub" = 1 ∧
       countKind ((scanLines raw).filterMap matchRec) "end_hub" = 1) := by
  unfold scanFileFormat
  cases hl : scanLines raw with
  | nil => simp
  | cons l0 rest =>
    dsimp only
    by_cases hE : scanErrors (l0 :: rest) = []
    · rw [if_pos hE]
      obtain ⟨h1, h2, h3, h4, h5⟩ := (scanErrors_nil_iff l0 rest).mp hE
      simp only [Option.isSome_some, true_iff]
      refine ⟨List.cons_ne_nil _ _, ?_, h2, h3, h4, h5⟩
      intro l0' rest' he
      injection he with h6 h7
      rw [← h6]
      exact h1
    · rw [if_neg hE]
      constructor
      · intro hcon
        exact absurd hcon (by simp)
      · rintro ⟨_, hnb, h2, h3, h4, h5⟩
        exact ((hE ((scanErrors_nil_iff l0 rest).mpr
          ⟨hnb l0 rest rfl, h2, h3, h4, h5⟩)).elim)

end FlyIn
